import Mathlib

/-!
# Aaronpiler: the derivative-based regex engine of `src/lexer/regex.cpp`

A shallow embedding of `class Regex` (`include/aaronpiler/lexer/regex.h`) and of its
operations `deepCopy`, `derivative`, `nullable` and the `make*` factories.

Modelling decisions.

* A `Regex*` that owns its children is a value of the inductive type `Regex`; the
  in-place mutation `void Regex::derivative(char)` becomes a function returning the
  new tree, and `bool Regex::nullable()`, which mutates the tree under a `Diff`
  node, returns the answer together with the tree it leaves behind.
* Child pointers are never null in a tree built by the factories from non-null
  arguments, so the guards `o.left && o.right` / `c.left && c.right` are always
  true and are not represented.
* `char` is modelled by `Char`; only equality of symbols is ever used.
* Claims about which nodes exist and which pointers they hold are stated over a
  second reading of the same operations, on an explicit store of nodes (`Heap`);
  `Heap.calls_refine` shows that on a strict tree the two readings agree.
-/

namespace Aaronpiler

/-- The variant `Regex::RegexVariant` together with the node that holds it. -/
inductive Regex where
  | Epsilon : Regex
  | EmptySet : Regex
  | Atom (atom : Char) : Regex
  | Star (reg : Regex) : Regex
  | Concat (left right : Regex) : Regex
  | Or (left right : Regex) : Regex
  | Diff (reg : Regex) (atom : Char) : Regex
  deriving DecidableEq, Repr

namespace Regex

/-- `Regex::deepCopy`: rebuilds every node of the tree. -/
def deepCopy : Regex → Regex
  | Epsilon => Epsilon
  | EmptySet => EmptySet
  | Atom a => Atom a
  | Star reg => Star (deepCopy reg)
  | Concat left right => Concat (deepCopy left) (deepCopy right)
  | Or left right => Or (deepCopy left) (deepCopy right)
  | Diff reg atom => Diff (deepCopy reg) atom

/-- Number of nodes of a tree. -/
def nodes : Regex → Nat
  | Epsilon => 1
  | EmptySet => 1
  | Atom _ => 1
  | Star reg => nodes reg + 1
  | Concat left right => nodes left + nodes right + 1
  | Or left right => nodes left + nodes right + 1
  | Diff reg _ => nodes reg + 1

/-- Largest number of `Diff` nodes on a path from the root to a leaf. -/
def diffDepth : Regex → Nat
  | Epsilon => 0
  | EmptySet => 0
  | Atom _ => 0
  | Star reg => diffDepth reg
  | Concat left right => max (diffDepth left) (diffDepth right)
  | Or left right => max (diffDepth left) (diffDepth right)
  | Diff reg _ => diffDepth reg + 1

/-- A structural copy is equal to its source. -/
theorem deepCopy_eq (r : Regex) : deepCopy r = r := by
  induction r with
  | Epsilon => rfl
  | EmptySet => rfl
  | Atom a => rfl
  | Star reg ih => simp [deepCopy, ih]
  | Concat left right ihl ihr => simp [deepCopy, ihl, ihr]
  | Or left right ihl ihr => simp [deepCopy, ihl, ihr]
  | Diff reg atom ih => simp [deepCopy, ih]

mutual

/-- `Regex::derivative(x)`, as the tree the node holds after the call. The result
carries the bound on `diffDepth` that makes the recursion of the `Diff` case (a
second `derivative` on the result of the first) well founded. -/
def derivativeCore (r : Regex) (x : Char) : {r' : Regex // diffDepth r' ≤ diffDepth r} :=
  match r with
  | Epsilon => ⟨EmptySet, by simp [diffDepth]⟩
  | EmptySet => ⟨EmptySet, by simp [diffDepth]⟩
  | Atom a =>
      if a = x then ⟨Epsilon, by simp [diffDepth]⟩ else ⟨EmptySet, by simp [diffDepth]⟩
  | Star reg =>
      let c := deepCopy reg
      let d := derivativeCore reg x
      ⟨Concat d.1 c, by
        have h := d.2
        simp only [diffDepth, c, deepCopy_eq]
        omega⟩
  | Concat left right =>
      let l := derivativeCore left x
      let n := nullableCore l.1
      if n.1.1 = true then
        let rc := deepCopy right
        let r' := derivativeCore right x
        ⟨Or (Concat n.1.2 rc) r'.1, by
          have h1 := l.2
          have h2 := n.2
          have h3 := r'.2
          simp only [diffDepth, rc, deepCopy_eq]
          omega⟩
      else
        ⟨Concat n.1.2 right, by
          have h1 := l.2
          have h2 := n.2
          simp only [diffDepth]
          omega⟩
  | Or left right =>
      let l := derivativeCore left x
      let r' := derivativeCore right x
      ⟨Or l.1 r'.1, by
        have h1 := l.2
        have h2 := r'.2
        simp only [diffDepth]
        omega⟩
  | Diff reg atom =>
      let d1 := derivativeCore reg atom
      let d2 := derivativeCore d1.1 x
      ⟨d2.1, by
        have h1 := d1.2
        have h2 := d2.2
        simp only [diffDepth]
        omega⟩
termination_by (diffDepth r, 1, nodes r)
decreasing_by
  all_goals simp only [Prod.lex_def, diffDepth, nodes]
  all_goals first
    | omega
    | (simp only [true_and]; omega)
    | (have h1 := l.2; simp only [l] at h1; omega)
    | (have h1 := d1.2; simp only [d1] at h1; omega)

/-- `Regex::nullable()`: the returned answer and the tree the node holds after the
call (the `Diff` case forces the pending derivative onto the child and keeps the
`Diff` tag). `&&` and `||` evaluate their right operand only when needed. -/
def nullableCore (r : Regex) : {p : Bool × Regex // diffDepth p.2 ≤ diffDepth r} :=
  match r with
  | Epsilon => ⟨(true, Epsilon), by simp⟩
  | EmptySet => ⟨(false, EmptySet), by simp⟩
  | Atom a => ⟨(false, Atom a), by simp⟩
  | Star reg => ⟨(true, Star reg), by simp⟩
  | Concat left right =>
      let l := nullableCore left
      if l.1.1 = true then
        let r' := nullableCore right
        ⟨(r'.1.1, Concat l.1.2 r'.1.2), by
          have h1 := l.2
          have h2 := r'.2
          simp only [diffDepth]
          omega⟩
      else
        ⟨(false, Concat l.1.2 right), by
          have h1 := l.2
          simp only [diffDepth]
          omega⟩
  | Or left right =>
      let l := nullableCore left
      if l.1.1 = true then
        ⟨(true, Or l.1.2 right), by
          have h1 := l.2
          simp only [diffDepth]
          omega⟩
      else
        let r' := nullableCore right
        ⟨(r'.1.1, Or l.1.2 r'.1.2), by
          have h1 := l.2
          have h2 := r'.2
          simp only [diffDepth]
          omega⟩
  | Diff reg atom =>
      let d := derivativeCore reg atom
      let n := nullableCore d.1
      ⟨(n.1.1, Diff n.1.2 atom), by
        have h1 := d.2
        have h2 := n.2
        simp only [diffDepth]
        omega⟩
termination_by (diffDepth r, 0, nodes r)
decreasing_by
  all_goals simp only [Prod.lex_def, diffDepth, nodes]
  all_goals first
    | omega
    | (simp only [true_and]; omega)
    | (have h1 := d.2; simp only [d] at h1; omega)

end

/-- `void Regex::derivative(char x)`: the tree held by the node after the call. -/
def derivative (r : Regex) (x : Char) : Regex := (derivativeCore r x).1

/-- `bool Regex::nullable()`: the returned answer, paired with the tree held by the
node after the call. -/
def nullable (r : Regex) : Bool × Regex := (nullableCore r).1

/-- `Regex::makeEpsilon`. -/
def makeEpsilon : Regex := Epsilon

/-- `Regex::makeEmptySet`. -/
def makeEmptySet : Regex := EmptySet

/-- `Regex::makeAtom`. -/
def makeAtom (character : Char) : Regex := Atom character

/-- `Regex::makeStar`. -/
def makeStar (reg : Regex) : Regex := Star reg

/-- `Regex::makeConcat`. -/
def makeConcat (left right : Regex) : Regex := Concat left right

/-- `Regex::makeOr`. -/
def makeOr (left right : Regex) : Regex := Or left right

/-- `Regex::makeDiff`: when the argument is tagged `Diff`, `derivative` is first
called on the argument itself with its own pending symbol. -/
def makeDiff (reg : Regex) (atom : Char) : Regex :=
  match reg with
  | Diff r a => Diff (derivative (Diff r a) a) atom
  | _ => Diff reg atom

/-- The caller's loop `for (p = input; *p; ++p) r->derivative(*p);`. -/
def consume (r : Regex) : List Char → Regex
  | [] => r
  | x :: xs => consume (derivative r x) xs

/-- The answer of `nullable()` after the symbols of `s` have been consumed one by one. -/
def accepts (r : Regex) (s : List Char) : Bool := (nullable (consume r s)).1

/-- No node of the tree is tagged `Diff`. -/
def diffFree : Regex → Bool
  | Epsilon => true
  | EmptySet => true
  | Atom _ => true
  | Star reg => diffFree reg
  | Concat left right => diffFree left && diffFree right
  | Or left right => diffFree left && diffFree right
  | Diff _ _ => false

/-- The node is tagged `Diff` (`std::holds_alternative<Diff>(val)`). -/
def isDiff : Regex → Bool
  | Diff _ _ => true
  | _ => false

/-- No `Diff` node of the tree has a `Diff` node as its direct child. -/
def noDiffDiff : Regex → Bool
  | Epsilon => true
  | EmptySet => true
  | Atom _ => true
  | Star reg => noDiffDiff reg
  | Concat left right => noDiffDiff left && noDiffDiff right
  | Or left right => noDiffDiff left && noDiffDiff right
  | Diff reg _ => !isDiff reg && noDiffDiff reg

/-- A tree on which `nullable()` answers `false` now and after every further
`derivative`: `EmptySet`, a `Concat` whose left child is such a tree, an `Or` of two
such trees. -/
def dead : Regex → Bool
  | EmptySet => true
  | Concat left _ => dead left
  | Or left right => dead left && dead right
  | _ => false

/-- The expression `Star(Star(... Star(Atom('a')) ...))` with `k` nested `Star` nodes. -/
def starTower : Nat → Regex
  | 0 => Atom 'a'
  | k + 1 => Star (starTower k)

/-- The expression `Concat(Concat(Atom('a'), Diff(r, 'a')), Epsilon)`: a thunk placed
where `derivative('a')` both derives it and lets `nullable()` force a copy of it. -/
def thunkWrap (r : Regex) : Regex := Concat (Concat (Atom 'a') (Diff r 'a')) Epsilon

/-- The trees a caller can hold: built by the factory operations and transformed by
`derivative`, `nullable` and `deepCopy` calls. -/
inductive Built : Regex → Prop where
  | ofEpsilon : Built makeEpsilon
  | ofEmptySet : Built makeEmptySet
  | ofAtom (c : Char) : Built (makeAtom c)
  | ofStar {r : Regex} : Built r → Built (makeStar r)
  | ofConcat {l r : Regex} : Built l → Built r → Built (makeConcat l r)
  | ofOr {l r : Regex} : Built l → Built r → Built (makeOr l r)
  | ofDiff {r : Regex} (x : Char) : Built r → Built (makeDiff r x)
  | ofDerivative {r : Regex} (x : Char) : Built r → Built (derivative r x)
  | ofNullable {r : Regex} : Built r → Built (nullable r).2
  | ofDeepCopy {r : Regex} : Built r → Built (deepCopy r)

mutual

/-- Step-indexed reading of `Regex::derivative`, with no termination argument built
in: the first argument bounds the depth of nested calls, and the result is `none`
when that bound is exhausted before the call returns. -/
def derivativeFuel : Nat → Regex → Char → Option Regex
  | 0, _, _ => none
  | _ + 1, Epsilon, _ => some EmptySet
  | _ + 1, EmptySet, _ => some EmptySet
  | _ + 1, Atom a, x => if a = x then some Epsilon else some EmptySet
  | n + 1, Star reg, x =>
      match derivativeFuel n reg x with
      | none => none
      | some d => some (Concat d (deepCopy reg))
  | n + 1, Concat left right, x =>
      match derivativeFuel n left x with
      | none => none
      | some l =>
          match nullableFuel n l with
          | none => none
          | some (true, l') =>
              match derivativeFuel n right x with
              | none => none
              | some r' => some (Or (Concat l' (deepCopy right)) r')
          | some (false, l') => some (Concat l' right)
  | n + 1, Or left right, x =>
      match derivativeFuel n left x with
      | none => none
      | some l =>
          match derivativeFuel n right x with
          | none => none
          | some r' => some (Or l r')
  | n + 1, Diff reg atom, x =>
      match derivativeFuel n reg atom with
      | none => none
      | some d => derivativeFuel n d x

/-- Step-indexed reading of `Regex::nullable`, as `derivativeFuel`. -/
def nullableFuel : Nat → Regex → Option (Bool × Regex)
  | 0, _ => none
  | _ + 1, Epsilon => some (true, Epsilon)
  | _ + 1, EmptySet => some (false, EmptySet)
  | _ + 1, Atom a => some (false, Atom a)
  | _ + 1, Star reg => some (true, Star reg)
  | n + 1, Concat left right =>
      match nullableFuel n left with
      | none => none
      | some (false, l) => some (false, Concat l right)
      | some (true, l) =>
          match nullableFuel n right with
          | none => none
          | some (b, r') => some (b, Concat l r')
  | n + 1, Or left right =>
      match nullableFuel n left with
      | none => none
      | some (true, l) => some (true, Or l right)
      | some (false, l) =>
          match nullableFuel n right with
          | none => none
          | some (b, r') => some (b, Or l r')
  | n + 1, Diff reg atom =>
      match derivativeFuel n reg atom with
      | none => none
      | some d =>
          match nullableFuel n d with
          | none => none
          | some (b, d') => some (b, Diff d' atom)

end

/-- The language an expression denotes, following the data-model table of the
specification: `Epsilon` the empty string only, `EmptySet` nothing, `Atom a` the
one-symbol string `a`, `Star` the Kleene closure, `Concat` concatenation, `Or` union,
and `Diff r a` the strings `w` with `a :: w` in the language of `r`. -/
def lang : Regex → Language Char
  | Epsilon => 1
  | EmptySet => 0
  | Atom a => {[a]}
  | Star reg => KStar.kstar (lang reg)
  | Concat left right => lang left * lang right
  | Or left right => lang left + lang right
  | Diff reg atom => {w | atom :: w ∈ lang reg}

end Regex

/-! ## The same operations over a store of nodes

The tree model above identifies a node with the tree below it. To speak about which
nodes exist and which child pointers they hold, the operations are also read over an
explicit store: a node is an address, its payload holds the addresses of its
children, `new Regex()` adds a node at the next free address, and `delete` is
recorded as the list of addresses it releases. The first argument of each operation
bounds the depth of nested calls. -/

/-- The payload `val` of a node, child pointers being addresses in the store. -/
inductive Cell where
  | Epsilon : Cell
  | EmptySet : Cell
  | Atom (atom : Char) : Cell
  | Star (reg : Nat) : Cell
  | Concat (left right : Nat) : Cell
  | Or (left right : Nat) : Cell
  | Diff (reg : Nat) (atom : Char) : Cell
  deriving DecidableEq, Repr

/-- The nodes allocated so far: address `p` holds the payload `h[p]`. -/
abbrev Store := List Cell

/-- One `derivative` call of a caller that holds an original tree and its copy. -/
inductive Op where
  | onOriginal (x : Char) : Op
  | onCopy (x : Char) : Op
  deriving DecidableEq, Repr

namespace Heap

/-- `new Regex()` followed by the assignment of `val`: the store and the new address. -/
def alloc (h : Store) (c : Cell) : Store × Nat := (h ++ [c], h.length)

/-- `Regex::makeEpsilon` over the store. -/
def makeEpsilon (h : Store) : Store × Nat := alloc h Cell.Epsilon

/-- `Regex::makeEmptySet` over the store. -/
def makeEmptySet (h : Store) : Store × Nat := alloc h Cell.EmptySet

/-- `Regex::makeAtom` over the store. -/
def makeAtom (h : Store) (character : Char) : Store × Nat := alloc h (Cell.Atom character)

/-- `Regex::makeStar` over the store. -/
def makeStar (h : Store) (reg : Nat) : Store × Nat := alloc h (Cell.Star reg)

/-- `Regex::makeConcat` over the store. -/
def makeConcat (h : Store) (left right : Nat) : Store × Nat := alloc h (Cell.Concat left right)

/-- `Regex::makeOr` over the store. -/
def makeOr (h : Store) (left right : Nat) : Store × Nat := alloc h (Cell.Or left right)

/-- `Regex::deepCopy` over the store: the copy is allocated first, then its children
are copied and its payload assigned. Returns the store and the address of the copy. -/
def deepCopy : Nat → Store → Nat → Option (Store × Nat)
  | 0, _, _ => none
  | n + 1, h, p =>
      let q := h.length
      let h0 := h ++ [Cell.Epsilon]
      match h[p]? with
      | none => none
      | some Cell.Epsilon => some (h0.set q Cell.Epsilon, q)
      | some Cell.EmptySet => some (h0.set q Cell.EmptySet, q)
      | some (Cell.Atom a) => some (h0.set q (Cell.Atom a), q)
      | some (Cell.Star reg) =>
          match deepCopy n h0 reg with
          | none => none
          | some (h1, r) => some (h1.set q (Cell.Star r), q)
      | some (Cell.Concat left right) =>
          match deepCopy n h0 left with
          | none => none
          | some (h1, l) =>
              match deepCopy n h1 right with
              | none => none
              | some (h2, r) => some (h2.set q (Cell.Concat l r), q)
      | some (Cell.Or left right) =>
          match deepCopy n h0 left with
          | none => none
          | some (h1, l) =>
              match deepCopy n h1 right with
              | none => none
              | some (h2, r) => some (h2.set q (Cell.Or l r), q)
      | some (Cell.Diff reg atom) =>
          match deepCopy n h0 reg with
          | none => none
          | some (h1, r) => some (h1.set q (Cell.Diff r atom), q)

mutual

/-- `Regex::derivative` over the store, called on the node at address `p`. -/
def derivative : Nat → Store → Nat → Char → Option Store
  | 0, _, _, _ => none
  | n + 1, h, p, x =>
      match h[p]? with
      | none => none
      | some Cell.Epsilon => some (h.set p Cell.EmptySet)
      | some Cell.EmptySet => some (h.set p Cell.EmptySet)
      | some (Cell.Atom a) =>
          if a = x then some (h.set p Cell.Epsilon) else some (h.set p Cell.EmptySet)
      | some (Cell.Star reg) =>
          match deepCopy n h reg with
          | none => none
          | some (h1, c) =>
              match derivative n h1 reg x with
              | none => none
              | some h2 => some (h2.set p (Cell.Concat reg c))
      | some (Cell.Concat left right) =>
          match derivative n h left x with
          | none => none
          | some h1 =>
              match nullable n h1 left with
              | none => none
              | some (h2, true) =>
                  match deepCopy n h2 right with
                  | none => none
                  | some (h3, r) =>
                      match derivative n h3 right x with
                      | none => none
                      | some h4 =>
                          some ((makeConcat h4 left r).1.set p
                            (Cell.Or (makeConcat h4 left r).2 right))
              | some (h2, false) => some (h2.set p (Cell.Concat left right))
      | some (Cell.Or left right) =>
          match derivative n h left x with
          | none => none
          | some h1 =>
              match derivative n h1 right x with
              | none => none
              | some h2 => some (h2.set p (Cell.Or left right))
      | some (Cell.Diff reg atom) =>
          match derivative n h reg atom with
          | none => none
          | some h1 =>
              match derivative n h1 reg x with
              | none => none
              | some h2 =>
                  match h2[reg]? with
                  | none => none
                  | some v => some (h2.set p v)

/-- `Regex::nullable` over the store, called on the node at address `p`. -/
def nullable : Nat → Store → Nat → Option (Store × Bool)
  | 0, _, _ => none
  | n + 1, h, p =>
      match h[p]? with
      | none => none
      | some Cell.Epsilon => some (h, true)
      | some Cell.EmptySet => some (h, false)
      | some (Cell.Atom _) => some (h, false)
      | some (Cell.Star _) => some (h, true)
      | some (Cell.Concat left right) =>
          match nullable n h left with
          | none => none
          | some (h1, false) => some (h1, false)
          | some (h1, true) => nullable n h1 right
      | some (Cell.Or left right) =>
          match nullable n h left with
          | none => none
          | some (h1, true) => some (h1, true)
          | some (h1, false) => nullable n h1 right
      | some (Cell.Diff reg atom) =>
          match derivative n h reg atom with
          | none => none
          | some h1 => nullable n h1 reg

end

/-- `Regex::makeDiff` over the store: the new node is allocated first; when the
argument is tagged `Diff`, `derivative` is called on it with its own pending symbol. -/
def makeDiff (n : Nat) (h : Store) (reg : Nat) (atom : Char) : Option (Store × Nat) :=
  let r := h.length
  let h0 := h ++ [Cell.Epsilon]
  match h0[reg]? with
  | none => none
  | some (Cell.Diff _ a) =>
      match derivative n h0 reg a with
      | none => none
      | some h1 => some (h1.set r (Cell.Diff reg atom), r)
  | some _ => some (h0.set r (Cell.Diff reg atom), r)

/-- `delete p`: the destructor `Regex::~Regex` deletes the children the node holds,
then the node itself is released. The result lists the released addresses in order. -/
def destroy : Nat → Store → Nat → Option (List Nat)
  | 0, _, _ => none
  | n + 1, h, p =>
      match h[p]? with
      | none => none
      | some (Cell.Star reg) =>
          match destroy n h reg with
          | none => none
          | some a => some (a ++ [p])
      | some (Cell.Concat left right) =>
          match destroy n h left with
          | none => none
          | some a =>
              match destroy n h right with
              | none => none
              | some b => some (a ++ b ++ [p])
      | some (Cell.Or left right) =>
          match destroy n h left with
          | none => none
          | some a =>
              match destroy n h right with
              | none => none
              | some b => some (a ++ b ++ [p])
      | some (Cell.Diff reg _) =>
          match destroy n h reg with
          | none => none
          | some a => some (a ++ [p])
      | some _ => some [p]

/-- The tree below the node at address `p`. -/
def toRegex : Nat → Store → Nat → Option Regex
  | 0, _, _ => none
  | n + 1, h, p =>
      match h[p]? with
      | none => none
      | some Cell.Epsilon => some Regex.Epsilon
      | some Cell.EmptySet => some Regex.EmptySet
      | some (Cell.Atom a) => some (Regex.Atom a)
      | some (Cell.Star reg) => (toRegex n h reg).map Regex.Star
      | some (Cell.Concat left right) =>
          match toRegex n h left, toRegex n h right with
          | some l, some r => some (Regex.Concat l r)
          | _, _ => none
      | some (Cell.Or left right) =>
          match toRegex n h left, toRegex n h right with
          | some l, some r => some (Regex.Or l r)
          | _, _ => none
      | some (Cell.Diff reg atom) => (toRegex n h reg).map (fun r => Regex.Diff r atom)

/-- The addresses `q` whose node holds `c` as a child pointer. -/
def parentsOf (h : Store) (c : Nat) : List Nat :=
  (List.range h.length).filter fun q =>
    match h[q]? with
    | some (Cell.Star reg) => reg = c
    | some (Cell.Concat left right) => left = c || right = c
    | some (Cell.Or left right) => left = c || right = c
    | some (Cell.Diff reg _) => reg = c
    | _ => false

/-- `Rep h p t fp`: in the store `h` the node at address `p` is the root of a tree
that reads as `t`, no node of which is reached twice, and `fp` lists the addresses
of its nodes. -/
inductive Rep (h : Store) : Nat → Regex → List Nat → Prop where
  | epsilon {p : Nat} : h[p]? = some Cell.Epsilon → Rep h p Regex.Epsilon [p]
  | emptySet {p : Nat} : h[p]? = some Cell.EmptySet → Rep h p Regex.EmptySet [p]
  | atom {p : Nat} {a : Char} : h[p]? = some (Cell.Atom a) → Rep h p (Regex.Atom a) [p]
  | star {p c : Nat} {t : Regex} {fc : List Nat} :
      h[p]? = some (Cell.Star c) → Rep h c t fc → p ∉ fc → Rep h p (Regex.Star t) (p :: fc)
  | concat {p l r : Nat} {tl tr : Regex} {fl fr : List Nat} :
      h[p]? = some (Cell.Concat l r) → Rep h l tl fl → Rep h r tr fr →
      (∀ a ∈ fl, a ∉ fr) → p ∉ fl → p ∉ fr →
      Rep h p (Regex.Concat tl tr) (p :: (fl ++ fr))
  | or {p l r : Nat} {tl tr : Regex} {fl fr : List Nat} :
      h[p]? = some (Cell.Or l r) → Rep h l tl fl → Rep h r tr fr →
      (∀ a ∈ fl, a ∉ fr) → p ∉ fl → p ∉ fr →
      Rep h p (Regex.Or tl tr) (p :: (fl ++ fr))
  | diff {p c : Nat} {t : Regex} {fc : List Nat} {a : Char} :
      h[p]? = some (Cell.Diff c a) → Rep h c t fc → p ∉ fc →
      Rep h p (Regex.Diff t a) (p :: fc)

/-- The step-indexed computation `f` returns `v` once its bound is large enough. -/
def Returns {α : Type} (f : Nat → Option α) (v : α) : Prop :=
  ∃ n, ∀ m, n ≤ m → f m = some v

/-- What a call on a tree occupying `fp` may do: the store only grows, nodes outside
the tree keep their payload, and the tree afterwards occupies nodes it occupied
before or fresh ones. -/
structure Step (h : Store) (fp : List Nat) (h' : Store) (fp' : List Nat) : Prop where
  len : h.length ≤ h'.length
  same : ∀ a, a < h.length → a ∉ fp → h'[a]? = h[a]?
  sub : ∀ a ∈ fp', a ∈ fp ∨ h.length ≤ a

/-- The call `derivative(x)` on a tree in the store returns and leaves the tree that
`Regex.derivative` computes, touching no node outside the tree. -/
def DerivOK (t : Regex) (x : Char) : Prop :=
  ∀ (h : Store) (p : Nat) (fp : List Nat), Rep h p t fp →
    ∃ h' fp', Returns (fun n => derivative n h p x) h' ∧
      Rep h' p (Regex.derivative t x) fp' ∧ Step h fp h' fp'

/-- The call `nullable()` on a tree in the store returns the answer and leaves the
tree that `Regex.nullable` computes, touching no node outside the tree. -/
def NullOK (t : Regex) : Prop :=
  ∀ (h : Store) (p : Nat) (fp : List Nat), Rep h p t fp →
    ∃ h' fp', Returns (fun n => nullable n h p) (h', (Regex.nullable t).1) ∧
      Rep h' p (Regex.nullable t).2 fp' ∧ Step h fp h' fp'

/-- A caller's sequence of `derivative` calls, each on the original (at `p`) or on
the copy (at `q`), in any order. -/
def run : Nat → Store → Nat → Nat → List Op → Option Store
  | _, h, _, _, [] => some h
  | n, h, p, q, Op.onOriginal x :: ops =>
      match derivative n h p x with
      | none => none
      | some h1 => run n h1 p q ops
  | n, h, p, q, Op.onCopy x :: ops =>
      match derivative n h q x with
      | none => none
      | some h1 => run n h1 p q ops

/-- The symbols the original consumes in a sequence of calls. -/
def originalSymbols : List Op → List Char
  | [] => []
  | Op.onOriginal x :: ops => x :: originalSymbols ops
  | Op.onCopy _ :: ops => originalSymbols ops

/-- The symbols the copy consumes in a sequence of calls. -/
def copySymbols : List Op → List Char
  | [] => []
  | Op.onOriginal _ :: ops => copySymbols ops
  | Op.onCopy x :: ops => x :: copySymbols ops

end Heap

namespace Regex

/-! ## The equations of `derivative` and `nullable`, one per branch of the source -/

theorem derivative_Epsilon (x : Char) : derivative Epsilon x = EmptySet := by
  simp [derivative, derivativeCore]

theorem derivative_EmptySet (x : Char) : derivative EmptySet x = EmptySet := by
  simp [derivative, derivativeCore]

theorem derivative_Atom (a x : Char) :
    derivative (Atom a) x = if a = x then Epsilon else EmptySet := by
  rw [derivative, derivativeCore]
  split <;> rfl

theorem derivative_Star (reg : Regex) (x : Char) :
    derivative (Star reg) x = Concat (derivative reg x) (deepCopy reg) := by
  rw [derivative, derivativeCore]
  rfl

theorem derivative_Concat (left right : Regex) (x : Char) :
    derivative (Concat left right) x =
      if (nullable (derivative left x)).1 = true then
        Or (Concat (nullable (derivative left x)).2 (deepCopy right)) (derivative right x)
      else Concat (nullable (derivative left x)).2 right := by
  rw [derivative, derivativeCore]
  simp only [nullable, derivative]
  split <;> rfl

theorem derivative_Or (left right : Regex) (x : Char) :
    derivative (Or left right) x = Or (derivative left x) (derivative right x) := by
  rw [derivative, derivativeCore]
  rfl

theorem derivative_Diff (reg : Regex) (atom x : Char) :
    derivative (Diff reg atom) x = derivative (derivative reg atom) x := by
  rw [derivative, derivativeCore]
  rfl

theorem nullable_Epsilon : nullable Epsilon = (true, Epsilon) := by
  simp [nullable, nullableCore]

theorem nullable_EmptySet : nullable EmptySet = (false, EmptySet) := by
  simp [nullable, nullableCore]

theorem nullable_Atom (a : Char) : nullable (Atom a) = (false, Atom a) := by
  simp [nullable, nullableCore]

theorem nullable_Star (reg : Regex) : nullable (Star reg) = (true, Star reg) := by
  simp [nullable, nullableCore]

theorem nullable_Concat (left right : Regex) :
    nullable (Concat left right) =
      if (nullable left).1 = true then
        ((nullable right).1, Concat (nullable left).2 (nullable right).2)
      else (false, Concat (nullable left).2 right) := by
  rw [nullable, nullableCore]
  simp only [nullable]
  split <;> rfl

theorem nullable_Or (left right : Regex) :
    nullable (Or left right) =
      if (nullable left).1 = true then (true, Or (nullable left).2 right)
      else ((nullable right).1, Or (nullable left).2 (nullable right).2) := by
  rw [nullable, nullableCore]
  simp only [nullable]
  split <;> rfl

theorem nullable_Diff (reg : Regex) (atom : Char) :
    nullable (Diff reg atom) =
      ((nullable (derivative reg atom)).1, Diff (nullable (derivative reg atom)).2 atom) := by
  rw [nullable, nullableCore]
  rfl

attribute [simp] deepCopy_eq derivative_Epsilon derivative_EmptySet derivative_Atom
  derivative_Star derivative_Concat derivative_Or derivative_Diff nullable_Epsilon
  nullable_EmptySet nullable_Atom nullable_Star nullable_Concat nullable_Or nullable_Diff

/-! ## Consumption of a string -/

@[simp] theorem consume_nil (r : Regex) : consume r [] = r := rfl

@[simp] theorem consume_cons (r : Regex) (x : Char) (xs : List Char) :
    consume r (x :: xs) = consume (derivative r x) xs := rfl

theorem consume_append (r : Regex) (s t : List Char) :
    consume r (s ++ t) = consume (consume r s) t := by
  induction s generalizing r with
  | nil => rfl
  | cons x xs ih => simp [ih]

/-- `Concat(EmptySet, r)` is a fixed point of `derivative`. -/
theorem derivative_Concat_EmptySet (r : Regex) (x : Char) :
    derivative (Concat EmptySet r) x = Concat EmptySet r := by
  simp

/-- `Concat(EmptySet, r)` stays as it is whatever is consumed. -/
theorem consume_Concat_EmptySet (r : Regex) (s : List Char) :
    consume (Concat EmptySet r) s = Concat EmptySet r := by
  induction s with
  | nil => rfl
  | cons x xs ih => rw [consume_cons, derivative_Concat_EmptySet, ih]

/-! ## Induction along the calls of `derivative` and `nullable` -/

theorem diffDepth_derivative_le (r : Regex) (x : Char) :
    diffDepth (derivative r x) ≤ diffDepth r :=
  (derivativeCore r x).2

theorem diffDepth_nullable_le (r : Regex) : diffDepth (nullable r).2 ≤ diffDepth r :=
  (nullableCore r).2

/-- Induction principle following the calls the two operations make: `P r x` is the
property of the call `r->derivative(x)`, `Q r` that of the call `r->nullable()`. -/
theorem calls_induction {P : Regex → Char → Prop} {Q : Regex → Prop}
    (dEps : ∀ x, P Epsilon x) (dEmp : ∀ x, P EmptySet x) (dAtom : ∀ a x, P (Atom a) x)
    (dStar : ∀ r x, P r x → P (Star r) x)
    (dConcat : ∀ l r x, P l x → Q (derivative l x) → P r x → P (Concat l r) x)
    (dOr : ∀ l r x, P l x → P r x → P (Or l r) x)
    (dDiff : ∀ r a x, P r a → P (derivative r a) x → P (Diff r a) x)
    (nEps : Q Epsilon) (nEmp : Q EmptySet) (nAtom : ∀ a, Q (Atom a))
    (nStar : ∀ r, Q (Star r))
    (nConcat : ∀ l r, Q l → Q r → Q (Concat l r))
    (nOr : ∀ l r, Q l → Q r → Q (Or l r))
    (nDiff : ∀ r a, P r a → Q (derivative r a) → Q (Diff r a)) :
    (∀ r x, P r x) ∧ (∀ r, Q r) := by
  have stepQ : ∀ d : Nat, (∀ r, diffDepth r < d → (Q r ∧ ∀ x, P r x)) →
      ∀ r, diffDepth r ≤ d → Q r := by
    intro d ih r
    induction r with
    | Epsilon => intro _; exact nEps
    | EmptySet => intro _; exact nEmp
    | Atom a => intro _; exact nAtom a
    | Star reg _ => intro _; exact nStar reg
    | Concat left right ihl ihr =>
        intro h
        simp only [diffDepth] at h
        exact nConcat left right (ihl (by omega)) (ihr (by omega))
    | Or left right ihl ihr =>
        intro h
        simp only [diffDepth] at h
        exact nOr left right (ihl (by omega)) (ihr (by omega))
    | Diff reg atom _ =>
        intro h
        simp only [diffDepth] at h
        have h1 := diffDepth_derivative_le reg atom
        exact nDiff reg atom ((ih reg (by omega)).2 atom)
          (ih (derivative reg atom) (by omega)).1
  have stepP : ∀ d : Nat, (∀ r, diffDepth r < d → (Q r ∧ ∀ x, P r x)) →
      ∀ r, diffDepth r ≤ d → ∀ x, P r x := by
    intro d ih r
    induction r with
    | Epsilon => intro _ x; exact dEps x
    | EmptySet => intro _ x; exact dEmp x
    | Atom a => intro _ x; exact dAtom a x
    | Star reg ihr =>
        intro h x
        simp only [diffDepth] at h
        exact dStar reg x (ihr h x)
    | Concat left right ihl ihr =>
        intro h x
        simp only [diffDepth] at h
        have h1 := diffDepth_derivative_le left x
        exact dConcat left right x (ihl (by omega) x)
          (stepQ d ih (derivative left x) (by omega)) (ihr (by omega) x)
    | Or left right ihl ihr =>
        intro h x
        simp only [diffDepth] at h
        exact dOr left right x (ihl (by omega) x) (ihr (by omega) x)
    | Diff reg atom _ =>
        intro h x
        simp only [diffDepth] at h
        have h1 := diffDepth_derivative_le reg atom
        exact dDiff reg atom x ((ih reg (by omega)).2 atom)
          ((ih (derivative reg atom) (by omega)).2 x)
  have all : ∀ d : Nat, ∀ r, diffDepth r < d → (Q r ∧ ∀ x, P r x) := by
    intro d
    induction d with
    | zero => intro r h; omega
    | succ n ih =>
        intro r h
        exact ⟨stepQ n ih r (by omega), stepP n ih r (by omega)⟩
  exact ⟨fun r x => (all (diffDepth r + 1) r (by omega)).2 x,
    fun r => (all (diffDepth r + 1) r (by omega)).1⟩

/-! ## Trees without `Diff` nodes -/

/-- On a tree without `Diff` nodes `nullable()` leaves the tree as it was. -/
theorem nullable_snd_of_diffFree (r : Regex) (h : diffFree r = true) :
    (nullable r).2 = r := by
  induction r with
  | Epsilon => simp
  | EmptySet => simp
  | Atom a => simp
  | Star reg _ => simp
  | Concat left right ihl ihr =>
      simp only [diffFree, Bool.and_eq_true] at h
      rw [nullable_Concat]
      split <;> simp [ihl h.1, ihr h.2]
  | Or left right ihl ihr =>
      simp only [diffFree, Bool.and_eq_true] at h
      rw [nullable_Or]
      split <;> simp [ihl h.1, ihr h.2]
  | Diff reg atom _ => simp [diffFree] at h

/-- On a tree without `Diff` nodes `derivative(x)` leaves a tree without `Diff` nodes. -/
theorem diffFree_derivative (r : Regex) (x : Char) (h : diffFree r = true) :
    diffFree (derivative r x) = true := by
  induction r with
  | Epsilon => simp [diffFree]
  | EmptySet => simp [diffFree]
  | Atom a => rw [derivative_Atom]; split <;> rfl
  | Star reg ih =>
      simp only [diffFree] at h
      simp [diffFree, ih h, h]
  | Concat left right ihl ihr =>
      simp only [diffFree, Bool.and_eq_true] at h
      rw [derivative_Concat, nullable_snd_of_diffFree _ (ihl h.1)]
      split <;> simp [diffFree, ihl h.1, ihr h.2, h.2]
  | Or left right ihl ihr =>
      simp only [diffFree, Bool.and_eq_true] at h
      simp [diffFree, ihl h.1, ihr h.2]
  | Diff reg atom _ => simp [diffFree] at h

theorem diffFree_consume (r : Regex) (s : List Char) (h : diffFree r = true) :
    diffFree (consume r s) = true := by
  induction s generalizing r with
  | nil => exact h
  | cons x xs ih => exact ih _ (diffFree_derivative r x h)

/-! ## Dead trees -/

theorem dead_nullable (t : Regex) (h : dead t = true) :
    (nullable t).1 = false ∧ dead (nullable t).2 = true := by
  induction t with
  | Epsilon => simp [dead] at h
  | EmptySet => simp [dead]
  | Atom a => simp [dead] at h
  | Star reg _ => simp [dead] at h
  | Concat left right ihl _ =>
      simp only [dead] at h
      simp [dead, ihl h]
  | Or left right ihl ihr =>
      simp only [dead, Bool.and_eq_true] at h
      simp [dead, ihl h.1, ihr h.2]
  | Diff reg atom _ => simp [dead] at h

/-- When `D_y(l)` is dead, so is `D_y(Concat(l, c))`. -/
theorem dead_derivative_Concat (l c : Regex) (y : Char)
    (h : dead (derivative l y) = true) : dead (derivative (Concat l c) y) = true := by
  have h1 := dead_nullable _ h
  simp [dead, h1.1, h1.2]

theorem dead_derivative (t : Regex) (x : Char) (h : dead t = true) :
    dead (derivative t x) = true := by
  induction t with
  | Epsilon => simp [dead] at h
  | EmptySet => simp [dead]
  | Atom a => simp [dead] at h
  | Star reg _ => simp [dead] at h
  | Concat left right ihl _ =>
      simp only [dead] at h
      exact dead_derivative_Concat left right x (ihl h)
  | Or left right ihl ihr =>
      simp only [dead, Bool.and_eq_true] at h
      simp [dead, ihl h.1, ihr h.2]
  | Diff reg atom _ => simp [dead] at h

theorem dead_consume (t : Regex) (s : List Char) (h : dead t = true) :
    dead (consume t s) = true := by
  induction s generalizing t with
  | nil => exact h
  | cons x xs ih => exact ih _ (dead_derivative t x h)

/-- Two `derivative` calls leave any tree without `Diff` nodes dead. -/
theorem dead_after_two (r : Regex) (x y : Char) (h : diffFree r = true) :
    dead (derivative (derivative r x) y) = true := by
  induction r with
  | Epsilon => simp [dead]
  | EmptySet => simp [dead]
  | Atom a =>
      rw [derivative_Atom]
      split <;> simp [dead]
  | Star reg ih =>
      simp only [diffFree] at h
      rw [derivative_Star]
      exact dead_derivative_Concat _ _ y (ih h)
  | Concat left right ihl ihr =>
      simp only [diffFree, Bool.and_eq_true] at h
      rw [derivative_Concat, nullable_snd_of_diffFree _ (diffFree_derivative left x h.1)]
      split
      · rw [derivative_Or]
        simp only [dead, Bool.and_eq_true]
        exact ⟨dead_derivative_Concat _ _ y (ihl h.1), ihr h.2⟩
      · exact dead_derivative_Concat _ _ y (ihl h.1)
  | Or left right ihl ihr =>
      simp only [diffFree, Bool.and_eq_true] at h
      simp [dead, ihl h.1, ihr h.2]
  | Diff reg atom _ => simp [diffFree] at h

/-! ## Number of nodes -/

theorem nodes_pos (r : Regex) : 1 ≤ nodes r := by
  cases r <;> simp [nodes]

/-- One `derivative` at most squares the number of nodes of a tree without `Diff`. -/
theorem nodes_derivative_le (r : Regex) (x : Char) (h : diffFree r = true) :
    nodes (derivative r x) ≤ nodes r ^ 2 := by
  induction r with
  | Epsilon => simp [nodes]
  | EmptySet => simp [nodes]
  | Atom a => rw [derivative_Atom]; split <;> simp [nodes]
  | Star reg ih =>
      simp only [diffFree] at h
      have h1 := ih h
      simp only [derivative_Star, deepCopy_eq, nodes]
      nlinarith [nodes_pos reg]
  | Concat left right ihl ihr =>
      simp only [diffFree, Bool.and_eq_true] at h
      have h1 := ihl h.1
      have h2 := ihr h.2
      have p1 := nodes_pos left
      have p2 := nodes_pos right
      rw [derivative_Concat, nullable_snd_of_diffFree _ (diffFree_derivative left x h.1)]
      split
      · simp only [deepCopy_eq, nodes]
        nlinarith
      · simp only [nodes]
        nlinarith
  | Or left right ihl ihr =>
      simp only [diffFree, Bool.and_eq_true] at h
      have h1 := ihl h.1
      have h2 := ihr h.2
      simp only [derivative_Or, nodes]
      nlinarith [nodes_pos left, nodes_pos right]
  | Diff reg atom _ => simp [diffFree] at h

/-- On a dead tree without `Diff` nodes `derivative` keeps the number of nodes. -/
theorem nodes_derivative_dead (t : Regex) (x : Char) (hd : dead t = true)
    (hf : diffFree t = true) : nodes (derivative t x) = nodes t := by
  induction t with
  | Epsilon => simp [dead] at hd
  | EmptySet => simp [nodes]
  | Atom a => simp [dead] at hd
  | Star reg _ => simp [dead] at hd
  | Concat left right ihl _ =>
      simp only [dead] at hd
      simp only [diffFree, Bool.and_eq_true] at hf
      have h1 := dead_nullable _ (dead_derivative left x hd)
      rw [derivative_Concat, nullable_snd_of_diffFree _ (diffFree_derivative left x hf.1)]
      rw [nullable_snd_of_diffFree _ (diffFree_derivative left x hf.1)] at h1
      simp [h1.1, nodes, ihl hd hf.1]
  | Or left right ihl ihr =>
      simp only [dead, Bool.and_eq_true] at hd
      simp only [diffFree, Bool.and_eq_true] at hf
      simp [nodes, ihl hd.1 hf.1, ihr hd.2 hf.2]
  | Diff reg atom _ => simp [dead] at hd

theorem nodes_consume_dead (t : Regex) (s : List Char) (hd : dead t = true)
    (hf : diffFree t = true) : nodes (consume t s) = nodes t := by
  induction s generalizing t with
  | nil => rfl
  | cons x xs ih =>
      rw [consume_cons, ih _ (dead_derivative t x hd) (diffFree_derivative t x hf),
        nodes_derivative_dead t x hd hf]

theorem nodes_starTower (k : Nat) : nodes (starTower k) = k + 1 := by
  induction k with
  | zero => rfl
  | succ n ih => simp [starTower, nodes, ih]

/-- One `derivative` on `k` nested `Star` nodes leaves `(k + 1)(k + 2) / 2` nodes. -/
theorem nodes_derivative_starTower (k : Nat) (x : Char) :
    2 * nodes (derivative (starTower k) x) = (k + 1) * (k + 2) := by
  induction k with
  | zero =>
      simp only [starTower, derivative_Atom]
      split <;> simp [nodes]
  | succ n ih =>
      simp only [starTower, derivative_Star, deepCopy_eq, nodes, nodes_starTower]
      nlinarith

/-! ## Thunk nesting -/

/-- `nullable()` never changes the tag of the node it is called on. -/
theorem isDiff_nullable (r : Regex) : isDiff (nullable r).2 = isDiff r := by
  cases r with
  | Epsilon => simp
  | EmptySet => simp
  | Atom a => simp
  | Star reg => simp
  | Concat left right => rw [nullable_Concat]; split <;> rfl
  | Or left right => rw [nullable_Or]; split <;> rfl
  | Diff reg atom => simp [isDiff]

/-- `derivative(x)` never leaves the node it is called on tagged `Diff`. -/
theorem isDiff_derivative (r : Regex) (x : Char) : isDiff (derivative r x) = false := by
  have h := calls_induction (P := fun r x => isDiff (derivative r x) = false)
    (Q := fun _ => True)
    (fun x => by simp [isDiff]) (fun x => by simp [isDiff])
    (fun a x => by beta_reduce; rw [derivative_Atom]; split <;> rfl)
    (fun r x _ => by simp [isDiff])
    (fun l r x _ _ _ => by beta_reduce; rw [derivative_Concat]; split <;> rfl)
    (fun l r x _ _ => by simp [isDiff])
    (fun r a x _ h => by beta_reduce; rw [derivative_Diff]; exact h)
    trivial trivial (fun _ => trivial) (fun _ => trivial) (fun _ _ _ _ => trivial)
    (fun _ _ _ _ => trivial) (fun _ _ _ _ => trivial)
  exact h.1 r x

/-- Both operations keep a tree free of thunks nested directly in thunks. -/
theorem noDiffDiff_calls :
    (∀ r x, noDiffDiff r = true → noDiffDiff (derivative r x) = true) ∧
      (∀ r, noDiffDiff r = true → noDiffDiff (nullable r).2 = true) := by
  apply calls_induction (P := fun r x => noDiffDiff r = true → noDiffDiff (derivative r x) = true)
    (Q := fun r => noDiffDiff r = true → noDiffDiff (nullable r).2 = true)
  · intro x _; simp [noDiffDiff]
  · intro x _; simp [noDiffDiff]
  · intro a x _; rw [derivative_Atom]; split <;> rfl
  · intro r x ih h
    simp only [noDiffDiff] at h
    simp [noDiffDiff, ih h, h]
  · intro l r x ihl ihn ihr h
    simp only [noDiffDiff, Bool.and_eq_true] at h
    rw [derivative_Concat]
    split <;> simp [noDiffDiff, ihn (ihl h.1), ihr h.2, h.2]
  · intro l r x ihl ihr h
    simp only [noDiffDiff, Bool.and_eq_true] at h
    simp [noDiffDiff, ihl h.1, ihr h.2]
  · intro r a x ih1 ih2 h
    simp only [noDiffDiff, Bool.and_eq_true] at h
    rw [derivative_Diff]
    exact ih2 (ih1 h.2)
  · intro _; simp [noDiffDiff]
  · intro _; simp [noDiffDiff]
  · intro a _; simp [noDiffDiff]
  · intro r h; simpa using h
  · intro l r ihl ihr h
    simp only [noDiffDiff, Bool.and_eq_true] at h
    rw [nullable_Concat]
    split <;> simp [noDiffDiff, ihl h.1, ihr h.2, h.2]
  · intro l r ihl ihr h
    simp only [noDiffDiff, Bool.and_eq_true] at h
    rw [nullable_Or]
    split <;> simp [noDiffDiff, ihl h.1, ihr h.2, h.2]
  · intro r a ih1 ih2 h
    simp only [noDiffDiff, Bool.and_eq_true] at h
    simp [noDiffDiff, isDiff_nullable, isDiff_derivative, ih2 (ih1 h.2)]

/-- `makeDiff` keeps its result free of thunks nested directly in thunks. -/
theorem noDiffDiff_makeDiff (r : Regex) (x : Char) (h : noDiffDiff r = true) :
    noDiffDiff (makeDiff r x) = true := by
  cases r with
  | Diff reg atom =>
      simp only [makeDiff, noDiffDiff, isDiff_derivative, Bool.not_false, Bool.true_and]
      exact noDiffDiff_calls.1 _ _ h
  | Epsilon => simp [makeDiff, noDiffDiff, isDiff]
  | EmptySet => simp [makeDiff, noDiffDiff, isDiff]
  | Atom a => simp [makeDiff, noDiffDiff, isDiff]
  | Star reg => simpa [makeDiff, noDiffDiff, isDiff] using h
  | Concat left right => simpa [makeDiff, noDiffDiff, isDiff] using h
  | Or left right => simpa [makeDiff, noDiffDiff, isDiff] using h

/-! ## Termination of the step-indexed reading -/

/-- With enough fuel the step-indexed `derivative` and `nullable` return, and they
return what the total functions return. -/
theorem fuel_suffices :
    (∀ r x, ∃ n, ∀ m, n ≤ m → derivativeFuel m r x = some (derivative r x)) ∧
      (∀ r, ∃ n, ∀ m, n ≤ m → nullableFuel m r = some (nullable r)) := by
  apply calls_induction
    (P := fun r x => ∃ n, ∀ m, n ≤ m → derivativeFuel m r x = some (derivative r x))
    (Q := fun r => ∃ n, ∀ m, n ≤ m → nullableFuel m r = some (nullable r))
  · intro x
    refine ⟨1, fun m hm => ?_⟩
    obtain ⟨k, rfl⟩ : ∃ k, m = k + 1 := ⟨m - 1, by omega⟩
    simp [derivativeFuel]
  · intro x
    refine ⟨1, fun m hm => ?_⟩
    obtain ⟨k, rfl⟩ : ∃ k, m = k + 1 := ⟨m - 1, by omega⟩
    simp [derivativeFuel]
  · intro a x
    refine ⟨1, fun m hm => ?_⟩
    obtain ⟨k, rfl⟩ : ∃ k, m = k + 1 := ⟨m - 1, by omega⟩
    simp only [derivativeFuel, derivative_Atom]
    split <;> rfl
  · rintro r x ⟨n, hn⟩
    refine ⟨n + 1, fun m hm => ?_⟩
    obtain ⟨k, rfl⟩ : ∃ k, m = k + 1 := ⟨m - 1, by omega⟩
    simp [derivativeFuel, hn k (by omega)]
  · rintro l r x ⟨n1, h1⟩ ⟨n2, h2⟩ ⟨n3, h3⟩
    refine ⟨n1 + n2 + n3 + 1, fun m hm => ?_⟩
    obtain ⟨k, rfl⟩ : ∃ k, m = k + 1 := ⟨m - 1, by omega⟩
    simp only [derivativeFuel, h1 k (by omega), h2 k (by omega), h3 k (by omega),
      derivative_Concat]
    cases hb : (nullable (derivative l x)).1 <;>
      rcases hp : nullable (derivative l x) with ⟨b, t⟩ <;>
      rw [hp] at hb <;> simp only at hb <;> subst hb <;> simp
  · rintro l r x ⟨n1, h1⟩ ⟨n2, h2⟩
    refine ⟨n1 + n2 + 1, fun m hm => ?_⟩
    obtain ⟨k, rfl⟩ : ∃ k, m = k + 1 := ⟨m - 1, by omega⟩
    simp [derivativeFuel, h1 k (by omega), h2 k (by omega)]
  · rintro r a x ⟨n1, h1⟩ ⟨n2, h2⟩
    refine ⟨n1 + n2 + 1, fun m hm => ?_⟩
    obtain ⟨k, rfl⟩ : ∃ k, m = k + 1 := ⟨m - 1, by omega⟩
    simp [derivativeFuel, h1 k (by omega), h2 k (by omega)]
  · refine ⟨1, fun m hm => ?_⟩
    obtain ⟨k, rfl⟩ : ∃ k, m = k + 1 := ⟨m - 1, by omega⟩
    simp [nullableFuel]
  · refine ⟨1, fun m hm => ?_⟩
    obtain ⟨k, rfl⟩ : ∃ k, m = k + 1 := ⟨m - 1, by omega⟩
    simp [nullableFuel]
  · intro a
    refine ⟨1, fun m hm => ?_⟩
    obtain ⟨k, rfl⟩ : ∃ k, m = k + 1 := ⟨m - 1, by omega⟩
    simp [nullableFuel]
  · intro r
    refine ⟨1, fun m hm => ?_⟩
    obtain ⟨k, rfl⟩ : ∃ k, m = k + 1 := ⟨m - 1, by omega⟩
    simp [nullableFuel]
  · rintro l r ⟨n1, h1⟩ ⟨n2, h2⟩
    refine ⟨n1 + n2 + 1, fun m hm => ?_⟩
    obtain ⟨k, rfl⟩ : ∃ k, m = k + 1 := ⟨m - 1, by omega⟩
    simp only [nullableFuel, h1 k (by omega), h2 k (by omega), nullable_Concat]
    rcases hp : nullable l with ⟨b, t⟩
    cases b <;> simp
  · rintro l r ⟨n1, h1⟩ ⟨n2, h2⟩
    refine ⟨n1 + n2 + 1, fun m hm => ?_⟩
    obtain ⟨k, rfl⟩ : ∃ k, m = k + 1 := ⟨m - 1, by omega⟩
    simp only [nullableFuel, h1 k (by omega), h2 k (by omega), nullable_Or]
    rcases hp : nullable l with ⟨b, t⟩
    cases b <;> simp
  · rintro r a ⟨n1, h1⟩ ⟨n2, h2⟩
    refine ⟨n1 + n2 + 1, fun m hm => ?_⟩
    obtain ⟨k, rfl⟩ : ∃ k, m = k + 1 := ⟨m - 1, by omega⟩
    simp [nullableFuel, h1 k (by omega), h2 k (by omega)]

end Regex

/-! ## The store model refines the tree model -/

namespace Heap

theorem getElem?_lt {h : Store} {p : Nat} {c : Cell} (e : h[p]? = some c) : p < h.length := by
  by_contra hn
  rw [List.getElem?_eq_none (by omega)] at e
  cases e

theorem Rep.lt {h : Store} {p : Nat} {t : Regex} {fp : List Nat} (r : Rep h p t fp) :
    ∀ a ∈ fp, a < h.length := by
  induction r with
  | epsilon e => intro a ha; simp at ha; subst ha; exact getElem?_lt e
  | emptySet e => intro a ha; simp at ha; subst ha; exact getElem?_lt e
  | atom e => intro a ha; simp at ha; subst ha; exact getElem?_lt e
  | star e _ _ ih =>
      intro a ha
      simp only [List.mem_cons] at ha
      rcases ha with rfl | ha
      · exact getElem?_lt e
      · exact ih a ha
  | concat e _ _ _ _ _ ihl ihr =>
      intro a ha
      simp only [List.mem_cons, List.mem_append] at ha
      rcases ha with rfl | ha | ha
      · exact getElem?_lt e
      · exact ihl a ha
      · exact ihr a ha
  | or e _ _ _ _ _ ihl ihr =>
      intro a ha
      simp only [List.mem_cons, List.mem_append] at ha
      rcases ha with rfl | ha | ha
      · exact getElem?_lt e
      · exact ihl a ha
      · exact ihr a ha
  | diff e _ _ ih =>
      intro a ha
      simp only [List.mem_cons] at ha
      rcases ha with rfl | ha
      · exact getElem?_lt e
      · exact ih a ha

/-- A tree is not affected by changes to nodes outside it. -/
theorem Rep.frame {h h' : Store} {p : Nat} {t : Regex} {fp : List Nat} (r : Rep h p t fp)
    (same : ∀ a ∈ fp, h'[a]? = h[a]?) : Rep h' p t fp := by
  induction r with
  | epsilon e => exact Rep.epsilon (by rw [same _ (by simp), e])
  | emptySet e => exact Rep.emptySet (by rw [same _ (by simp), e])
  | atom e => exact Rep.atom (by rw [same _ (by simp), e])
  | star e _ hp ih =>
      exact Rep.star (by rw [same _ (by simp), e])
        (ih fun a ha => same a (by simp [ha])) hp
  | concat e _ _ hd hl hr ihl ihr =>
      exact Rep.concat (by rw [same _ (by simp), e])
        (ihl fun a ha => same a (by simp [ha])) (ihr fun a ha => same a (by simp [ha]))
        hd hl hr
  | or e _ _ hd hl hr ihl ihr =>
      exact Rep.or (by rw [same _ (by simp), e])
        (ihl fun a ha => same a (by simp [ha])) (ihr fun a ha => same a (by simp [ha]))
        hd hl hr
  | diff e _ hp ih =>
      exact Rep.diff (by rw [same _ (by simp), e])
        (ih fun a ha => same a (by simp [ha])) hp

/-- The tree below `c` is also the tree below any node `p` outside it that holds the
payload of `c`. -/
theorem Rep.reroot {h : Store} (h' : Store) {c p : Nat} {t : Regex} {fc : List Nat}
    (r : Rep h c t fc)
    (hp : p ∉ fc) (root : h'[p]? = h[c]?) (same : ∀ a ∈ fc, a ≠ c → h'[a]? = h[a]?) :
    ∃ fp, Rep h' p t fp ∧ ∀ a ∈ fp, a = p ∨ a ∈ fc := by
  cases r with
  | epsilon e => exact ⟨[p], Rep.epsilon (by rw [root, e]), by simp⟩
  | emptySet e => exact ⟨[p], Rep.emptySet (by rw [root, e]), by simp⟩
  | atom e => exact ⟨[p], Rep.atom (by rw [root, e]), by simp⟩
  | star e rc hc =>
      rename_i c' t' fc'
      have hs : ∀ a ∈ fc', h'[a]? = h[a]? := fun a ha =>
        same a (by simp [ha]) (by rintro rfl; exact hc ha)
      refine ⟨p :: fc', Rep.star (by rw [root, e]) (rc.frame hs) (fun hm => hp (by simp [hm])), ?_⟩
      intro a ha
      simp only [List.mem_cons] at ha ⊢
      tauto
  | concat e rl rr hd hl hr =>
      rename_i l' r' tl tr fl fr
      have hsl : ∀ a ∈ fl, h'[a]? = h[a]? := fun a ha =>
        same a (by simp [ha]) (by rintro rfl; exact hl ha)
      have hsr : ∀ a ∈ fr, h'[a]? = h[a]? := fun a ha =>
        same a (by simp [ha]) (by rintro rfl; exact hr ha)
      refine ⟨p :: (fl ++ fr), Rep.concat (by rw [root, e]) (rl.frame hsl) (rr.frame hsr) hd
        (fun hm => hp (by simp [hm])) (fun hm => hp (by simp [hm])), ?_⟩
      intro a ha
      simp only [List.mem_cons, List.mem_append] at ha ⊢
      tauto
  | or e rl rr hd hl hr =>
      rename_i l' r' tl tr fl fr
      have hsl : ∀ a ∈ fl, h'[a]? = h[a]? := fun a ha =>
        same a (by simp [ha]) (by rintro rfl; exact hl ha)
      have hsr : ∀ a ∈ fr, h'[a]? = h[a]? := fun a ha =>
        same a (by simp [ha]) (by rintro rfl; exact hr ha)
      refine ⟨p :: (fl ++ fr), Rep.or (by rw [root, e]) (rl.frame hsl) (rr.frame hsr) hd
        (fun hm => hp (by simp [hm])) (fun hm => hp (by simp [hm])), ?_⟩
      intro a ha
      simp only [List.mem_cons, List.mem_append] at ha ⊢
      tauto
  | diff e rc hc =>
      rename_i c' t' fc' a'
      have hs : ∀ a ∈ fc', h'[a]? = h[a]? := fun a ha =>
        same a (by simp [ha]) (by rintro rfl; exact hc ha)
      refine ⟨p :: fc', Rep.diff (by rw [root, e]) (rc.frame hs) (fun hm => hp (by simp [hm])), ?_⟩
      intro a ha
      simp only [List.mem_cons] at ha ⊢
      tauto

theorem get_set_self {h : Store} {p : Nat} (v : Cell) (hp : p < h.length) :
    (h.set p v)[p]? = some v := by
  simp [List.getElem?_set, hp]

theorem get_set_ne {h : Store} {p a : Nat} (v : Cell) (hne : a ≠ p) :
    (h.set p v)[a]? = h[a]? := by
  rw [List.getElem?_set_ne (Ne.symm hne)]

theorem get_append_left {h : Store} {a : Nat} (l : Store) (ha : a < h.length) :
    (h ++ l)[a]? = h[a]? :=
  List.getElem?_append_left ha

/-- `deepCopy` on a tree returns, leaves every existing node as it was, and builds
at fresh addresses only a tree that reads as the source. -/
theorem deepCopy_spec (t : Regex) : ∀ (h : Store) (p : Nat) (fp : List Nat), Rep h p t fp →
    ∃ h' fq, Returns (fun n => deepCopy n h p) (h', h.length) ∧ Rep h' h.length t fq ∧
      (∀ a, a < h.length → h'[a]? = h[a]?) ∧ (∀ a ∈ fq, h.length ≤ a) ∧
      h.length < h'.length := by
  induction t with
  | Epsilon =>
      intro h p fp r
      cases r with
      | epsilon e =>
          refine ⟨(h ++ [Cell.Epsilon]).set h.length Cell.Epsilon, [h.length], ?_, ?_, ?_, ?_, ?_⟩
          · refine ⟨1, fun m hm => ?_⟩
            obtain ⟨k, rfl⟩ : ∃ k, m = k + 1 := ⟨m - 1, by omega⟩
            simp only [deepCopy, e]
          · exact Rep.epsilon (get_set_self _ (by simp))
          · intro a ha
            rw [get_set_ne _ (by omega), get_append_left _ ha]
          · simp
          · simp
  | EmptySet =>
      intro h p fp r
      cases r with
      | emptySet e =>
          refine ⟨(h ++ [Cell.Epsilon]).set h.length Cell.EmptySet, [h.length], ?_, ?_, ?_, ?_, ?_⟩
          · refine ⟨1, fun m hm => ?_⟩
            obtain ⟨k, rfl⟩ : ∃ k, m = k + 1 := ⟨m - 1, by omega⟩
            simp only [deepCopy, e]
          · exact Rep.emptySet (get_set_self _ (by simp))
          · intro a ha
            rw [get_set_ne _ (by omega), get_append_left _ ha]
          · simp
          · simp
  | Atom c =>
      intro h p fp r
      cases r with
      | atom e =>
          refine ⟨(h ++ [Cell.Epsilon]).set h.length (Cell.Atom c), [h.length], ?_, ?_, ?_, ?_, ?_⟩
          · refine ⟨1, fun m hm => ?_⟩
            obtain ⟨k, rfl⟩ : ∃ k, m = k + 1 := ⟨m - 1, by omega⟩
            simp only [deepCopy, e]
          · exact Rep.atom (get_set_self _ (by simp))
          · intro a ha
            rw [get_set_ne _ (by omega), get_append_left _ ha]
          · simp
          · simp
  | Star reg ih =>
      intro h p fp r
      cases r with
      | star e rc hc =>
          rename_i c fc
          have l0 : (h ++ [Cell.Epsilon]).length = h.length + 1 := by simp
          have rc0 : Rep (h ++ [Cell.Epsilon]) c reg fc :=
            rc.frame fun a ha => get_append_left _ (rc.lt a ha)
          obtain ⟨h1, fq1, ⟨n1, hn1⟩, r1, same1, fresh1, len1⟩ := ih _ c fc rc0
          rw [l0] at r1 same1 fresh1 len1 hn1
          refine ⟨h1.set h.length (Cell.Star (h.length + 1)), h.length :: fq1, ?_, ?_, ?_, ?_, ?_⟩
          · refine ⟨n1 + 1, fun m hm => ?_⟩
            obtain ⟨k, rfl⟩ : ∃ k, m = k + 1 := ⟨m - 1, by omega⟩
            simp only [deepCopy, e, hn1 k (by omega)]
          · refine Rep.star (get_set_self _ (by omega)) (r1.frame fun a ha => ?_) ?_
            · exact get_set_ne _ (by have := fresh1 a ha; omega)
            · intro hm; have := fresh1 _ hm; omega
          · intro a ha
            rw [get_set_ne _ (by omega), same1 a (by omega), get_append_left _ ha]
          · intro a ha
            simp only [List.mem_cons] at ha
            rcases ha with rfl | ha
            · exact le_refl _
            · have := fresh1 a ha; omega
          · simp only [List.length_set]; omega
  | Concat left right ihl ihr =>
      intro h p fp r
      cases r with
      | concat e rl rr hd hl hr =>
          rename_i l r' fl fr
          have l0 : (h ++ [Cell.Epsilon]).length = h.length + 1 := by simp
          have rl0 : Rep (h ++ [Cell.Epsilon]) l left fl :=
            rl.frame fun a ha => get_append_left _ (rl.lt a ha)
          obtain ⟨h1, fq1, ⟨n1, hn1⟩, r1, same1, fresh1, len1⟩ := ihl _ l fl rl0
          rw [l0] at r1 same1 fresh1 len1 hn1
          have rr1 : Rep h1 r' right fr :=
            rr.frame fun a ha => by
              rw [same1 a (by have := rr.lt a ha; omega), get_append_left _ (rr.lt a ha)]
          obtain ⟨h2, fq2, ⟨n2, hn2⟩, r2, same2, fresh2, len2⟩ := ihr _ r' fr rr1
          have b1 := r1.lt
          refine ⟨h2.set h.length (Cell.Concat (h.length + 1) h1.length),
            h.length :: (fq1 ++ fq2), ?_, ?_, ?_, ?_, ?_⟩
          · refine ⟨n1 + n2 + 1, fun m hm => ?_⟩
            obtain ⟨k, rfl⟩ : ∃ k, m = k + 1 := ⟨m - 1, by omega⟩
            simp only [deepCopy, e, hn1 k (by omega), hn2 k (by omega)]
          · refine Rep.concat (get_set_self _ (by omega)) (r1.frame fun a ha => ?_)
              (r2.frame fun a ha => ?_) ?_ ?_ ?_
            · rw [get_set_ne _ (by have := fresh1 a ha; omega), same2 a (b1 a ha)]
            · exact get_set_ne _ (by have := fresh2 a ha; omega)
            · intro a ha hb
              have := b1 a ha
              have := fresh2 a hb
              omega
            · intro hm; have := fresh1 _ hm; omega
            · intro hm; have := fresh2 _ hm; omega
          · intro a ha
            rw [get_set_ne _ (by omega), same2 a (by omega), same1 a (by omega),
              get_append_left _ ha]
          · intro a ha
            simp only [List.mem_cons, List.mem_append] at ha
            rcases ha with rfl | ha | ha
            · exact le_refl _
            · have := fresh1 a ha; omega
            · have := fresh2 a ha; omega
          · simp only [List.length_set]; omega
  | Or left right ihl ihr =>
      intro h p fp r
      cases r with
      | or e rl rr hd hl hr =>
          rename_i l r' fl fr
          have l0 : (h ++ [Cell.Epsilon]).length = h.length + 1 := by simp
          have rl0 : Rep (h ++ [Cell.Epsilon]) l left fl :=
            rl.frame fun a ha => get_append_left _ (rl.lt a ha)
          obtain ⟨h1, fq1, ⟨n1, hn1⟩, r1, same1, fresh1, len1⟩ := ihl _ l fl rl0
          rw [l0] at r1 same1 fresh1 len1 hn1
          have rr1 : Rep h1 r' right fr :=
            rr.frame fun a ha => by
              rw [same1 a (by have := rr.lt a ha; omega), get_append_left _ (rr.lt a ha)]
          obtain ⟨h2, fq2, ⟨n2, hn2⟩, r2, same2, fresh2, len2⟩ := ihr _ r' fr rr1
          have b1 := r1.lt
          refine ⟨h2.set h.length (Cell.Or (h.length + 1) h1.length),
            h.length :: (fq1 ++ fq2), ?_, ?_, ?_, ?_, ?_⟩
          · refine ⟨n1 + n2 + 1, fun m hm => ?_⟩
            obtain ⟨k, rfl⟩ : ∃ k, m = k + 1 := ⟨m - 1, by omega⟩
            simp only [deepCopy, e, hn1 k (by omega), hn2 k (by omega)]
          · refine Rep.or (get_set_self _ (by omega)) (r1.frame fun a ha => ?_)
              (r2.frame fun a ha => ?_) ?_ ?_ ?_
            · rw [get_set_ne _ (by have := fresh1 a ha; omega), same2 a (b1 a ha)]
            · exact get_set_ne _ (by have := fresh2 a ha; omega)
            · intro a ha hb
              have := b1 a ha
              have := fresh2 a hb
              omega
            · intro hm; have := fresh1 _ hm; omega
            · intro hm; have := fresh2 _ hm; omega
          · intro a ha
            rw [get_set_ne _ (by omega), same2 a (by omega), same1 a (by omega),
              get_append_left _ ha]
          · intro a ha
            simp only [List.mem_cons, List.mem_append] at ha
            rcases ha with rfl | ha | ha
            · exact le_refl _
            · have := fresh1 a ha; omega
            · have := fresh2 a ha; omega
          · simp only [List.length_set]; omega
  | Diff reg atom ih =>
      intro h p fp r
      cases r with
      | diff e rc hc =>
          rename_i c fc
          have l0 : (h ++ [Cell.Epsilon]).length = h.length + 1 := by simp
          have rc0 : Rep (h ++ [Cell.Epsilon]) c reg fc :=
            rc.frame fun a ha => get_append_left _ (rc.lt a ha)
          obtain ⟨h1, fq1, ⟨n1, hn1⟩, r1, same1, fresh1, len1⟩ := ih _ c fc rc0
          rw [l0] at r1 same1 fresh1 len1 hn1
          refine ⟨h1.set h.length (Cell.Diff (h.length + 1) atom), h.length :: fq1,
            ?_, ?_, ?_, ?_, ?_⟩
          · refine ⟨n1 + 1, fun m hm => ?_⟩
            obtain ⟨k, rfl⟩ : ∃ k, m = k + 1 := ⟨m - 1, by omega⟩
            simp only [deepCopy, e, hn1 k (by omega)]
          · refine Rep.diff (get_set_self _ (by omega)) (r1.frame fun a ha => ?_) ?_
            · exact get_set_ne _ (by have := fresh1 a ha; omega)
            · intro hm; have := fresh1 _ hm; omega
          · intro a ha
            rw [get_set_ne _ (by omega), same1 a (by omega), get_append_left _ ha]
          · intro a ha
            simp only [List.mem_cons] at ha
            rcases ha with rfl | ha
            · exact le_refl _
            · have := fresh1 a ha; omega
          · simp only [List.length_set]; omega

theorem Step.trans {h h1 h2 : Store} {fp fp1 fp2 : List Nat} (s1 : Step h fp h1 fp1)
    (s2 : Step h1 fp1 h2 fp2) : Step h fp h2 fp2 where
  len := le_trans s1.len s2.len
  same := by
    intro a ha hn
    have h1' := s1.len
    rw [s2.same a (by omega) (fun hm => by rcases s1.sub a hm with h | h; exact hn h; omega),
      s1.same a ha hn]
  sub := by
    intro a ha
    have h1' := s1.len
    rcases s2.sub a ha with h | h
    · exact s1.sub a h
    · right; omega

/-- A tree disjoint from the one a call works on is kept by the call. -/
theorem Rep.keep {h h' : Store} {q : Nat} {u : Regex} {fu fc fc' : List Nat}
    (r : Rep h q u fu) (st : Step h fc h' fc') (dis : ∀ a ∈ fu, a ∉ fc) :
    Rep h' q u fu ∧ ∀ a ∈ fu, a ∉ fc' := by
  refine ⟨r.frame fun a ha => st.same a (r.lt a ha) (dis a ha), fun a ha hm => ?_⟩
  rcases st.sub a hm with h1 | h1
  · exact dis a ha h1
  · have := r.lt a ha; omega

theorem Rep.set {h : Store} {q p : Nat} {u : Regex} {fu : List Nat} (r : Rep h q u fu)
    (v : Cell) (hp : p ∉ fu) : Rep (h.set p v) q u fu :=
  r.frame fun a ha => get_set_ne v (by rintro rfl; exact hp ha)

theorem Rep.append {h : Store} {q : Nat} {u : Regex} {fu : List Nat} (r : Rep h q u fu)
    (l : Store) : Rep (h ++ l) q u fu :=
  r.frame fun a ha => get_append_left l (r.lt a ha)

theorem Rep.root_lt {h : Store} {p : Nat} {t : Regex} {fp : List Nat} (r : Rep h p t fp) :
    p < h.length := by
  cases r <;> exact getElem?_lt (by assumption)

theorem step_set_leaf {h : Store} {p : Nat} (v : Cell) : Step h [p] (h.set p v) [p] where
  len := by simp
  same := by
    intro a _ hn
    exact get_set_ne v (by simpa using hn)
  sub := by intro a ha; exact Or.inl ha

theorem derivOK_Epsilon (x : Char) : DerivOK Regex.Epsilon x := by
  intro h p fp r
  cases r with
  | epsilon e =>
      refine ⟨h.set p Cell.EmptySet, [p], ⟨1, fun m hm => ?_⟩, ?_, step_set_leaf _⟩
      · obtain ⟨k, rfl⟩ : ∃ k, m = k + 1 := ⟨m - 1, by omega⟩
        simp only [derivative, e]
      · rw [Regex.derivative_Epsilon]
        exact Rep.emptySet (get_set_self _ (getElem?_lt e))

theorem derivOK_EmptySet (x : Char) : DerivOK Regex.EmptySet x := by
  intro h p fp r
  cases r with
  | emptySet e =>
      refine ⟨h.set p Cell.EmptySet, [p], ⟨1, fun m hm => ?_⟩, ?_, step_set_leaf _⟩
      · obtain ⟨k, rfl⟩ : ∃ k, m = k + 1 := ⟨m - 1, by omega⟩
        simp only [derivative, e]
      · rw [Regex.derivative_EmptySet]
        exact Rep.emptySet (get_set_self _ (getElem?_lt e))

theorem derivOK_Atom (c x : Char) : DerivOK (Regex.Atom c) x := by
  intro h p fp r
  cases r with
  | atom e =>
      by_cases hx : c = x
      · refine ⟨h.set p Cell.Epsilon, [p], ⟨1, fun m hm => ?_⟩, ?_, step_set_leaf _⟩
        · obtain ⟨k, rfl⟩ : ∃ k, m = k + 1 := ⟨m - 1, by omega⟩
          simp only [derivative, e, hx, if_true]
        · rw [Regex.derivative_Atom, if_pos hx]
          exact Rep.epsilon (get_set_self _ (getElem?_lt e))
      · refine ⟨h.set p Cell.EmptySet, [p], ⟨1, fun m hm => ?_⟩, ?_, step_set_leaf _⟩
        · obtain ⟨k, rfl⟩ : ∃ k, m = k + 1 := ⟨m - 1, by omega⟩
          simp only [derivative, e, hx, if_false]
        · rw [Regex.derivative_Atom, if_neg hx]
          exact Rep.emptySet (get_set_self _ (getElem?_lt e))

theorem derivOK_Star (t : Regex) (x : Char) (ih : DerivOK t x) : DerivOK (Regex.Star t) x := by
  intro h p fp r
  cases r with
  | star e rc hc =>
      rename_i c fc
      have hp := getElem?_lt e
      obtain ⟨h1, fq, ⟨n1, hn1⟩, r1, same1, fresh1, len1⟩ := deepCopy_spec t h c fc rc
      have rc1 : Rep h1 c t fc := rc.frame fun a ha => same1 a (rc.lt a ha)
      obtain ⟨h2, fc2, ⟨n2, hn2⟩, r2, st2⟩ := ih h1 c fc rc1
      have bq := r1.lt
      have bc := rc.lt
      have k1 := r1.keep st2 (fun a ha hm => by have := fresh1 a ha; have := bc a hm; omega)
      have l2 := st2.len
      have pc2 : p ∉ fc2 := fun hm => by
        rcases st2.sub p hm with h3 | h3
        · exact hc h3
        · omega
      have pq : p ∉ fq := fun hm => by have := fresh1 p hm; omega
      refine ⟨h2.set p (Cell.Concat c h.length), p :: (fc2 ++ fq), ⟨n1 + n2 + 1, fun m hm => ?_⟩,
        ?_, ?_⟩
      · obtain ⟨k, rfl⟩ : ∃ k, m = k + 1 := ⟨m - 1, by omega⟩
        simp only [derivative, e, hn1 k (by omega), hn2 k (by omega)]
      · rw [Regex.derivative_Star, Regex.deepCopy_eq]
        refine Rep.concat (get_set_self _ (by omega)) (r2.set _ pc2) (k1.1.set _ pq) ?_ pc2 pq
        intro a ha hb
        exact k1.2 a hb ha
      · refine ⟨by simp only [List.length_set]; omega, fun a ha hn => ?_, fun a ha => ?_⟩
        · simp only [List.mem_cons, not_or] at hn
          rw [get_set_ne _ hn.1, st2.same a (by omega) hn.2, same1 a ha]
        · simp only [List.mem_cons, List.mem_append] at ha ⊢
          rcases ha with rfl | ha | ha
          · exact Or.inl (Or.inl rfl)
          · rcases st2.sub a ha with h3 | h3
            · exact Or.inl (Or.inr h3)
            · right; omega
          · right; exact fresh1 a ha

theorem derivOK_Or (l r : Regex) (x : Char) (ihl : DerivOK l x) (ihr : DerivOK r x) :
    DerivOK (Regex.Or l r) x := by
  intro h p fp rp
  cases rp with
  | or e rl rr hd hl hr =>
      rename_i pl pr fl fr
      have hp := getElem?_lt e
      obtain ⟨h1, fl1, ⟨n1, hn1⟩, r1, st1⟩ := ihl h pl fl rl
      have kr := rr.keep st1 (fun a ha hm => hd a hm ha)
      obtain ⟨h2, fr2, ⟨n2, hn2⟩, r2, st2⟩ := ihr h1 pr fr kr.1
      have kl := r1.keep st2 (fun a ha hm => kr.2 a hm ha)
      have l1 := st1.len
      have l2 := st2.len
      have pl1 : p ∉ fl1 := fun hm => by
        rcases st1.sub p hm with h3 | h3
        · exact hl h3
        · omega
      have pr2 : p ∉ fr2 := fun hm => by
        rcases st2.sub p hm with h3 | h3
        · exact hr h3
        · omega
      refine ⟨h2.set p (Cell.Or pl pr), p :: (fl1 ++ fr2), ⟨n1 + n2 + 1, fun m hm => ?_⟩, ?_, ?_⟩
      · obtain ⟨k, rfl⟩ : ∃ k, m = k + 1 := ⟨m - 1, by omega⟩
        simp only [derivative, e, hn1 k (by omega), hn2 k (by omega)]
      · rw [Regex.derivative_Or]
        exact Rep.or (get_set_self _ (by omega)) (kl.1.set _ pl1) (r2.set _ pr2) kl.2 pl1 pr2
      · refine ⟨by simp only [List.length_set]; omega, fun a ha hn => ?_, fun a ha => ?_⟩
        · simp only [List.mem_cons, List.mem_append, not_or] at hn
          rw [get_set_ne _ hn.1, st2.same a (by omega) hn.2.2, st1.same a ha hn.2.1]
        · simp only [List.mem_cons, List.mem_append] at ha ⊢
          rcases ha with rfl | ha | ha
          · exact Or.inl (Or.inl rfl)
          · rcases st1.sub a ha with h3 | h3
            · exact Or.inl (Or.inr (Or.inl h3))
            · right; omega
          · rcases st2.sub a ha with h3 | h3
            · exact Or.inl (Or.inr (Or.inr h3))
            · right; omega

theorem derivOK_Diff (t : Regex) (c x : Char) (ih1 : DerivOK t c)
    (ih2 : DerivOK (Regex.derivative t c) x) : DerivOK (Regex.Diff t c) x := by
  intro h p fp rp
  cases rp with
  | diff e rc hc =>
      rename_i pc fc
      have hp := getElem?_lt e
      obtain ⟨h1, fc1, ⟨n1, hn1⟩, r1, st1⟩ := ih1 h pc fc rc
      obtain ⟨h2, fc2, ⟨n2, hn2⟩, r2, st2⟩ := ih2 h1 pc fc1 r1
      have st := st1.trans st2
      have l2 := st.len
      have pc2 : p ∉ fc2 := fun hm => by
        rcases st.sub p hm with h3 | h3
        · exact hc h3
        · omega
      obtain ⟨v, hv⟩ : ∃ v, h2[pc]? = some v := by
        have := r2.root_lt
        exact ⟨h2[pc], List.getElem?_eq_getElem this⟩
      obtain ⟨fp', r', sub'⟩ := r2.reroot (h2.set p v) pc2
        (by rw [get_set_self _ (by omega), hv])
        (fun a ha _ => get_set_ne _ (by rintro rfl; exact pc2 ha))
      refine ⟨h2.set p v, fp', ⟨n1 + n2 + 1, fun m hm => ?_⟩, ?_, ?_⟩
      · obtain ⟨k, rfl⟩ : ∃ k, m = k + 1 := ⟨m - 1, by omega⟩
        simp only [derivative, e, hn1 k (by omega), hn2 k (by omega), hv]
      · rw [Regex.derivative_Diff]
        exact r'
      · refine ⟨by simp only [List.length_set]; omega, fun a ha hn => ?_, fun a ha => ?_⟩
        · simp only [List.mem_cons, not_or] at hn
          rw [get_set_ne _ hn.1, st.same a ha hn.2]
        · simp only [List.mem_cons]
          rcases sub' a ha with rfl | h3
          · exact Or.inl (Or.inl rfl)
          · rcases st.sub a h3 with h4 | h4
            · exact Or.inl (Or.inr h4)
            · exact Or.inr h4

theorem derivOK_Concat (tl tr : Regex) (x : Char) (ihl : DerivOK tl x)
    (ihn : NullOK (Regex.derivative tl x)) (ihr : DerivOK tr x) :
    DerivOK (Regex.Concat tl tr) x := by
  intro h p fp rp
  cases rp with
  | concat e rl rr hd hl hr =>
      rename_i pl pr fl fr
      have hp := getElem?_lt e
      obtain ⟨h1, fl1, ⟨n1, hn1⟩, r1, st1⟩ := ihl h pl fl rl
      obtain ⟨h2, fl2, ⟨n2, hn2⟩, r2, st2⟩ := ihn h1 pl fl1 r1
      have st := st1.trans st2
      have kr := rr.keep st (fun a ha hm => hd a hm ha)
      have l2 := st.len
      have pl2 : p ∉ fl2 := fun hm => by
        rcases st.sub p hm with h3 | h3
        · exact hl h3
        · omega
      have bl2 := r2.lt
      have br := rr.lt
      rw [Regex.derivative_Concat]
      by_cases hb : (Regex.nullable (Regex.derivative tl x)).1 = true
      · rw [if_pos hb, Regex.deepCopy_eq]
        rw [hb] at hn2
        obtain ⟨h3, fq, ⟨n3, hn3⟩, r3, same3, fresh3, len3⟩ := deepCopy_spec tr h2 pr fr kr.1
        have rr3 : Rep h3 pr tr fr := kr.1.frame fun a ha => same3 a (kr.1.lt a ha)
        obtain ⟨h4, fr4, ⟨n4, hn4⟩, r4, st4⟩ := ihr h3 pr fr rr3
        have l4 := st4.len
        have bq := r3.lt
        have rl3 : Rep h3 pl (Regex.nullable (Regex.derivative tl x)).2 fl2 :=
          r2.frame fun a ha => same3 a (bl2 a ha)
        have kl := rl3.keep st4 (fun a ha hm => kr.2 a hm ha)
        have kq := r3.keep st4 (fun a ha hm => by
          have := fresh3 a ha; have := br a hm; omega)
        have b4 := r4.lt
        have pr4 : p ∉ fr4 := fun hm => by
          rcases st4.sub p hm with h5 | h5
          · exact hr h5
          · omega
        have pq : p ∉ fq := fun hm => by have := fresh3 p hm; omega
        have mfl : h4.length ∉ fl2 := fun hm => by have := bl2 _ hm; omega
        have mfq : h4.length ∉ fq := fun hm => by have := bq _ hm; omega
        have mfr : h4.length ∉ fr4 := fun hm => by have := b4 _ hm; omega
        have hne : h4.length ≠ p := by omega
        have l5 : (h4 ++ [Cell.Concat pl h2.length]).length = h4.length + 1 := by simp
        refine ⟨(h4 ++ [Cell.Concat pl h2.length]).set p (Cell.Or h4.length pr),
          p :: ((h4.length :: (fl2 ++ fq)) ++ fr4),
          ⟨n1 + n2 + n3 + n4 + 1, fun m hm => ?_⟩, ?_, ?_⟩
        · obtain ⟨k, rfl⟩ : ∃ k, m = k + 1 := ⟨m - 1, by omega⟩
          simp only [derivative, e, hn1 k (by omega), hn2 k (by omega), hn3 k (by omega),
            hn4 k (by omega), makeConcat, alloc]
        · have rm : Rep ((h4 ++ [Cell.Concat pl h2.length]).set p (Cell.Or h4.length pr))
              h4.length (Regex.Concat (Regex.nullable (Regex.derivative tl x)).2 tr)
              (h4.length :: (fl2 ++ fq)) := by
            refine Rep.concat ?_ ((kl.1.append _).set _ pl2) ((kq.1.append _).set _ pq)
              ?_ mfl mfq
            · rw [get_set_ne _ hne, List.getElem?_append_right (le_refl _)]
              simp
            · intro a ha hm
              have := bl2 a ha
              have := fresh3 a hm
              omega
          refine Rep.or (get_set_self _ (by omega)) rm ((r4.append _).set _ pr4) ?_ ?_ pr4
          · intro a ha hm
            simp only [List.mem_cons, List.mem_append] at ha
            rcases ha with rfl | ha | ha
            · exact mfr hm
            · exact kl.2 a ha hm
            · exact kq.2 a ha hm
          · intro hm
            simp only [List.mem_cons, List.mem_append] at hm
            rcases hm with h5 | h5 | h5
            · omega
            · exact pl2 h5
            · exact pq h5
        · refine ⟨by simp only [List.length_set, l5]; omega, fun a ha hn => ?_, fun a ha => ?_⟩
          · simp only [List.mem_cons, List.mem_append, not_or] at hn
            rw [get_set_ne _ hn.1, get_append_left _ (by omega), st4.same a (by omega) hn.2.2,
              same3 a (by omega), st.same a ha hn.2.1]
          · simp only [List.mem_cons, List.mem_append] at ha ⊢
            rcases ha with rfl | (rfl | ha | ha) | ha
            · exact Or.inl (Or.inl rfl)
            · right; omega
            · rcases st.sub a ha with h5 | h5
              · exact Or.inl (Or.inr (Or.inl h5))
              · exact Or.inr h5
            · right; have := fresh3 a ha; omega
            · rcases st4.sub a ha with h5 | h5
              · exact Or.inl (Or.inr (Or.inr h5))
              · right; omega
      · rw [if_neg hb]
        have hb' : (Regex.nullable (Regex.derivative tl x)).1 = false := by
          simpa using hb
        rw [hb'] at hn2
        refine ⟨h2.set p (Cell.Concat pl pr), p :: (fl2 ++ fr),
          ⟨n1 + n2 + 1, fun m hm => ?_⟩, ?_, ?_⟩
        · obtain ⟨k, rfl⟩ : ∃ k, m = k + 1 := ⟨m - 1, by omega⟩
          simp only [derivative, e, hn1 k (by omega), hn2 k (by omega)]
        · exact Rep.concat (get_set_self _ (by omega)) (r2.set _ pl2) (kr.1.set _ hr)
            (fun a ha hm => kr.2 a hm ha) pl2 hr
        · refine ⟨by simp only [List.length_set]; omega, fun a ha hn => ?_, fun a ha => ?_⟩
          · simp only [List.mem_cons, List.mem_append, not_or] at hn
            rw [get_set_ne _ hn.1, st.same a ha hn.2.1]
          · simp only [List.mem_cons, List.mem_append] at ha ⊢
            rcases ha with rfl | ha | ha
            · exact Or.inl (Or.inl rfl)
            · rcases st.sub a ha with h5 | h5
              · exact Or.inl (Or.inr (Or.inl h5))
              · exact Or.inr h5
            · exact Or.inl (Or.inr (Or.inr ha))

theorem step_refl (h : Store) (fp : List Nat) : Step h fp h fp :=
  ⟨le_refl _, fun _ _ _ => rfl, fun _ ha => Or.inl ha⟩

theorem nullOK_Epsilon : NullOK Regex.Epsilon := by
  intro h p fp r
  refine ⟨h, fp, ⟨1, fun m hm => ?_⟩, by simpa using r, step_refl h fp⟩
  cases r with
  | epsilon e =>
      obtain ⟨k, rfl⟩ : ∃ k, m = k + 1 := ⟨m - 1, by omega⟩
      simp only [nullable, e, Regex.nullable_Epsilon]

theorem nullOK_EmptySet : NullOK Regex.EmptySet := by
  intro h p fp r
  refine ⟨h, fp, ⟨1, fun m hm => ?_⟩, by simpa using r, step_refl h fp⟩
  cases r with
  | emptySet e =>
      obtain ⟨k, rfl⟩ : ∃ k, m = k + 1 := ⟨m - 1, by omega⟩
      simp only [nullable, e, Regex.nullable_EmptySet]

theorem nullOK_Atom (c : Char) : NullOK (Regex.Atom c) := by
  intro h p fp r
  refine ⟨h, fp, ⟨1, fun m hm => ?_⟩, by simpa using r, step_refl h fp⟩
  cases r with
  | atom e =>
      obtain ⟨k, rfl⟩ : ∃ k, m = k + 1 := ⟨m - 1, by omega⟩
      simp only [nullable, e, Regex.nullable_Atom]

theorem nullOK_Star (t : Regex) : NullOK (Regex.Star t) := by
  intro h p fp r
  refine ⟨h, fp, ⟨1, fun m hm => ?_⟩, by simpa using r, step_refl h fp⟩
  cases r with
  | star e _ _ =>
      obtain ⟨k, rfl⟩ : ∃ k, m = k + 1 := ⟨m - 1, by omega⟩
      simp only [nullable, e, Regex.nullable_Star]

theorem nullOK_Concat (tl tr : Regex) (ihl : NullOK tl) (ihr : NullOK tr) :
    NullOK (Regex.Concat tl tr) := by
  intro h p fp rp
  cases rp with
  | concat e rl rr hd hl hr =>
      rename_i pl pr fl fr
      have hp := getElem?_lt e
      obtain ⟨h1, fl1, ⟨n1, hn1⟩, r1, st1⟩ := ihl h pl fl rl
      have kr := rr.keep st1 (fun a ha hm => hd a hm ha)
      have l1 := st1.len
      have pl1 : p ∉ fl1 := fun hm => by
        rcases st1.sub p hm with h3 | h3
        · exact hl h3
        · omega
      have e1 : h1[p]? = some (Cell.Concat pl pr) := by
        rw [st1.same p hp hl, e]
      rw [Regex.nullable_Concat]
      by_cases hb : (Regex.nullable tl).1 = true
      · rw [if_pos hb]
        rw [hb] at hn1
        obtain ⟨h2, fr2, ⟨n2, hn2⟩, r2, st2⟩ := ihr h1 pr fr kr.1
        have kl := r1.keep st2 (fun a ha hm => kr.2 a hm ha)
        have l2 := st2.len
        have pr2 : p ∉ fr2 := fun hm => by
          rcases st2.sub p hm with h3 | h3
          · exact hr h3
          · omega
        have e2 : h2[p]? = some (Cell.Concat pl pr) := by
          rw [st2.same p (by omega) hr, e1]
        refine ⟨h2, p :: (fl1 ++ fr2), ⟨n1 + n2 + 1, fun m hm => ?_⟩, ?_, ?_⟩
        · obtain ⟨k, rfl⟩ : ∃ k, m = k + 1 := ⟨m - 1, by omega⟩
          simp only [nullable, e, hn1 k (by omega), hn2 k (by omega)]
        · exact Rep.concat e2 kl.1 r2 kl.2 pl1 pr2
        · refine ⟨by omega, fun a ha hn => ?_, fun a ha => ?_⟩
          · simp only [List.mem_cons, List.mem_append, not_or] at hn
            rw [st2.same a (by omega) hn.2.2, st1.same a ha hn.2.1]
          · simp only [List.mem_cons, List.mem_append] at ha ⊢
            rcases ha with rfl | ha | ha
            · exact Or.inl (Or.inl rfl)
            · rcases st1.sub a ha with h3 | h3
              · exact Or.inl (Or.inr (Or.inl h3))
              · exact Or.inr h3
            · rcases st2.sub a ha with h3 | h3
              · exact Or.inl (Or.inr (Or.inr h3))
              · right; omega
      · rw [if_neg hb]
        have hb' : (Regex.nullable tl).1 = false := by simpa using hb
        rw [hb'] at hn1
        refine ⟨h1, p :: (fl1 ++ fr), ⟨n1 + 1, fun m hm => ?_⟩, ?_, ?_⟩
        · obtain ⟨k, rfl⟩ : ∃ k, m = k + 1 := ⟨m - 1, by omega⟩
          simp only [nullable, e, hn1 k (by omega)]
        · exact Rep.concat e1 r1 kr.1 (fun a ha hm => kr.2 a hm ha) pl1 hr
        · refine ⟨by omega, fun a ha hn => ?_, fun a ha => ?_⟩
          · simp only [List.mem_cons, List.mem_append, not_or] at hn
            rw [st1.same a ha hn.2.1]
          · simp only [List.mem_cons, List.mem_append] at ha ⊢
            rcases ha with rfl | ha | ha
            · exact Or.inl (Or.inl rfl)
            · rcases st1.sub a ha with h3 | h3
              · exact Or.inl (Or.inr (Or.inl h3))
              · exact Or.inr h3
            · exact Or.inl (Or.inr (Or.inr ha))

theorem nullOK_Or (tl tr : Regex) (ihl : NullOK tl) (ihr : NullOK tr) :
    NullOK (Regex.Or tl tr) := by
  intro h p fp rp
  cases rp with
  | or e rl rr hd hl hr =>
      rename_i pl pr fl fr
      have hp := getElem?_lt e
      obtain ⟨h1, fl1, ⟨n1, hn1⟩, r1, st1⟩ := ihl h pl fl rl
      have kr := rr.keep st1 (fun a ha hm => hd a hm ha)
      have l1 := st1.len
      have pl1 : p ∉ fl1 := fun hm => by
        rcases st1.sub p hm with h3 | h3
        · exact hl h3
        · omega
      have e1 : h1[p]? = some (Cell.Or pl pr) := by
        rw [st1.same p hp hl, e]
      rw [Regex.nullable_Or]
      by_cases hb : (Regex.nullable tl).1 = true
      · rw [if_pos hb]
        rw [hb] at hn1
        refine ⟨h1, p :: (fl1 ++ fr), ⟨n1 + 1, fun m hm => ?_⟩, ?_, ?_⟩
        · obtain ⟨k, rfl⟩ : ∃ k, m = k + 1 := ⟨m - 1, by omega⟩
          simp only [nullable, e, hn1 k (by omega)]
        · exact Rep.or e1 r1 kr.1 (fun a ha hm => kr.2 a hm ha) pl1 hr
        · refine ⟨by omega, fun a ha hn => ?_, fun a ha => ?_⟩
          · simp only [List.mem_cons, List.mem_append, not_or] at hn
            rw [st1.same a ha hn.2.1]
          · simp only [List.mem_cons, List.mem_append] at ha ⊢
            rcases ha with rfl | ha | ha
            · exact Or.inl (Or.inl rfl)
            · rcases st1.sub a ha with h3 | h3
              · exact Or.inl (Or.inr (Or.inl h3))
              · exact Or.inr h3
            · exact Or.inl (Or.inr (Or.inr ha))
      · rw [if_neg hb]
        have hb' : (Regex.nullable tl).1 = false := by simpa using hb
        rw [hb'] at hn1
        obtain ⟨h2, fr2, ⟨n2, hn2⟩, r2, st2⟩ := ihr h1 pr fr kr.1
        have kl := r1.keep st2 (fun a ha hm => kr.2 a hm ha)
        have l2 := st2.len
        have pr2 : p ∉ fr2 := fun hm => by
          rcases st2.sub p hm with h3 | h3
          · exact hr h3
          · omega
        have e2 : h2[p]? = some (Cell.Or pl pr) := by
          rw [st2.same p (by omega) hr, e1]
        refine ⟨h2, p :: (fl1 ++ fr2), ⟨n1 + n2 + 1, fun m hm => ?_⟩, ?_, ?_⟩
        · obtain ⟨k, rfl⟩ : ∃ k, m = k + 1 := ⟨m - 1, by omega⟩
          simp only [nullable, e, hn1 k (by omega), hn2 k (by omega)]
        · exact Rep.or e2 kl.1 r2 kl.2 pl1 pr2
        · refine ⟨by omega, fun a ha hn => ?_, fun a ha => ?_⟩
          · simp only [List.mem_cons, List.mem_append, not_or] at hn
            rw [st2.same a (by omega) hn.2.2, st1.same a ha hn.2.1]
          · simp only [List.mem_cons, List.mem_append] at ha ⊢
            rcases ha with rfl | ha | ha
            · exact Or.inl (Or.inl rfl)
            · rcases st1.sub a ha with h3 | h3
              · exact Or.inl (Or.inr (Or.inl h3))
              · exact Or.inr h3
            · rcases st2.sub a ha with h3 | h3
              · exact Or.inl (Or.inr (Or.inr h3))
              · right; omega

theorem nullOK_Diff (t : Regex) (c : Char) (ih1 : DerivOK t c)
    (ih2 : NullOK (Regex.derivative t c)) : NullOK (Regex.Diff t c) := by
  intro h p fp rp
  cases rp with
  | diff e rc hc =>
      rename_i pc fc
      have hp := getElem?_lt e
      obtain ⟨h1, fc1, ⟨n1, hn1⟩, r1, st1⟩ := ih1 h pc fc rc
      obtain ⟨h2, fc2, ⟨n2, hn2⟩, r2, st2⟩ := ih2 h1 pc fc1 r1
      have st := st1.trans st2
      have l2 := st.len
      have pc2 : p ∉ fc2 := fun hm => by
        rcases st.sub p hm with h3 | h3
        · exact hc h3
        · omega
      have e2 : h2[p]? = some (Cell.Diff pc c) := by
        rw [st.same p hp hc, e]
      refine ⟨h2, p :: fc2, ⟨n1 + n2 + 1, fun m hm => ?_⟩, ?_, ?_⟩
      · obtain ⟨k, rfl⟩ : ∃ k, m = k + 1 := ⟨m - 1, by omega⟩
        simp only [nullable, e, hn1 k (by omega), hn2 k (by omega), Regex.nullable_Diff]
      · rw [Regex.nullable_Diff]
        exact Rep.diff e2 r2 pc2
      · refine ⟨by omega, fun a ha hn => ?_, fun a ha => ?_⟩
        · simp only [List.mem_cons, not_or] at hn
          rw [st.same a ha hn.2]
        · simp only [List.mem_cons] at ha ⊢
          rcases ha with rfl | ha
          · exact Or.inl (Or.inl rfl)
          · rcases st.sub a ha with h3 | h3
            · exact Or.inl (Or.inr h3)
            · exact Or.inr h3

/-- Every call of `derivative` and `nullable` on a tree in the store does what the
tree model says, and touches no node outside the tree. -/
theorem calls_refine : (∀ t x, DerivOK t x) ∧ (∀ t, NullOK t) :=
  Regex.calls_induction derivOK_Epsilon derivOK_EmptySet derivOK_Atom derivOK_Star
    derivOK_Concat derivOK_Or derivOK_Diff nullOK_Epsilon nullOK_EmptySet nullOK_Atom
    nullOK_Star nullOK_Concat nullOK_Or nullOK_Diff

/-- Two disjoint trees stay disjoint under any sequence of `derivative` calls, and
each becomes what its own symbols make of it. -/
theorem run_spec (ops : List Op) : ∀ (h : Store) (p q : Nat) (tp tq : Regex)
    (fp fq : List Nat), Rep h p tp fp → Rep h q tq fq → (∀ a ∈ fq, a ∉ fp) →
    ∃ h' fp' fq', Returns (fun n => run n h p q ops) h' ∧
      Rep h' p (Regex.consume tp (originalSymbols ops)) fp' ∧
      Rep h' q (Regex.consume tq (copySymbols ops)) fq' ∧ (∀ a ∈ fq', a ∉ fp') := by
  induction ops with
  | nil =>
      intro h p q tp tq fp fq rp rq dis
      exact ⟨h, fp, fq, ⟨0, fun m _ => rfl⟩, rp, rq, dis⟩
  | cons op ops ih =>
      intro h p q tp tq fp fq rp rq dis
      cases op with
      | onOriginal x =>
          obtain ⟨h1, fp1, ⟨n1, hn1⟩, r1, st1⟩ := calls_refine.1 tp x h p fp rp
          have kq := rq.keep st1 dis
          obtain ⟨h', fp', fq', ⟨n2, hn2⟩, rp', rq', dis'⟩ :=
            ih h1 p q (Regex.derivative tp x) tq fp1 fq r1 kq.1 kq.2
          refine ⟨h', fp', fq', ⟨n1 + n2, fun m hm => ?_⟩, rp', rq', dis'⟩
          simp only [run, hn1 m (by omega), hn2 m (by omega)]
      | onCopy x =>
          obtain ⟨h1, fq1, ⟨n1, hn1⟩, r1, st1⟩ := calls_refine.1 tq x h q fq rq
          have kp := rp.keep st1 (fun a ha hm => dis a hm ha)
          obtain ⟨h', fp', fq', ⟨n2, hn2⟩, rp', rq', dis'⟩ :=
            ih h1 p q tp (Regex.derivative tq x) fp fq1 kp.1 r1 (fun a ha hm => kp.2 a hm ha)
          refine ⟨h', fp', fq', ⟨n1 + n2, fun m hm => ?_⟩, rp', rq', dis'⟩
          simp only [run, hn1 m (by omega), hn2 m (by omega)]

end Heap

namespace Regex

/-! ## The claims -/

/-- C1 (sequential-consumption law), evaluated on the code: the string `"a"` belongs
to the language of `Star(Atom('a'))`, yet after `derivative('a')` the tree is
`Concat(Epsilon, Atom('a'))` and `nullable()` answers `false`. -/
theorem C1_consumption_law_fails_on_star :
    ['a'] ∈ lang (Star (Atom 'a')) ∧
      consume (Star (Atom 'a')) ['a'] = Concat Epsilon (Atom 'a') ∧
      accepts (Star (Atom 'a')) ['a'] = false := by
  refine ⟨?_, by simp, by simp [accepts]⟩
  simp only [lang]
  rw [Language.mem_kstar]
  exact ⟨[['a']], by simp, by
    intro y hy
    simp only [List.mem_singleton] at hy
    subst hy
    exact Set.mem_singleton _⟩

/-- C2 (Star derivative rule), evaluated on the code: `derivative(x)` on `Star(r)`
leaves `Concat(D, c)` with `c` the copy of `r` itself, never `Concat(D, Star(c))`;
on `Star(Atom('a'))` and `'a'` it leaves `Concat(Epsilon, Atom('a'))`. -/
theorem C2_star_rule_drops_star :
    (∀ (reg : Regex) (x : Char),
        derivative (Star reg) x = Concat (derivative reg x) (deepCopy reg) ∧
        derivative (Star reg) x ≠ Concat (derivative reg x) (Star (deepCopy reg))) ∧
      derivative (Star (Atom 'a')) 'a' = Concat Epsilon (Atom 'a') := by
  refine ⟨fun reg x => ⟨derivative_Star reg x, ?_⟩, by simp⟩
  rw [derivative_Star, deepCopy_eq]
  intro h
  injection h with _ h2
  have h3 := congrArg nodes h2
  simp [nodes] at h3

/-- C3 (Concat derivative rule), evaluated on the code: the branch is taken on the
nullability of the left child after it has been mutated. `Atom('a')` is not nullable
but `Concat(Atom('a'), Atom('b'))` becomes an `Or` under `derivative('a')`;
`Epsilon` is nullable but `Concat(Epsilon, Atom('b'))` stays a `Concat` under
`derivative('b')`. -/
theorem C3_concat_rule_uses_mutated_left :
    ((nullable (Atom 'a')).1 = false ∧
        derivative (Concat (Atom 'a') (Atom 'b')) 'a'
          = Or (Concat Epsilon (Atom 'b')) EmptySet) ∧
      ((nullable Epsilon).1 = true ∧
        derivative (Concat Epsilon (Atom 'b')) 'b' = Concat EmptySet (Atom 'b')) := by
  refine ⟨⟨by simp, by simp⟩, ⟨by simp, by simp⟩⟩

/-- C4 (`(a|b)*c`), evaluated on the code: whatever the symbols `a`, `b`, `c` are,
the expression is not nullable after consuming `c` alone (the case `w = ""`), and
for `'a'`, `'b'`, `'c'` it is not nullable after `"abc"`, the sequence of
`test_star_or_concat_derivative`. -/
theorem C4_star_or_concat_rejects :
    (∀ a b c : Char,
        accepts (Concat (Star (Or (Atom a) (Atom b))) (Atom c)) ([] ++ [c]) = false) ∧
      accepts (Concat (Star (Or (Atom 'a') (Atom 'b'))) (Atom 'c')) (['a', 'b'] ++ ['c'])
        = false := by
  refine ⟨fun a b c => ?_, by simp [accepts]⟩
  by_cases h1 : a = c <;> by_cases h2 : b = c <;> simp [accepts, h1, h2]

/-- C5 (`Concat(Atom(a), Atom(b))`), evaluated on the code: after consuming `a` and
then `b` the tree is `Or(Concat(EmptySet, Atom(b)), EmptySet)` and `nullable()`
answers `false`, for all symbols `a` and `b`. -/
theorem C5_concat_atoms_rejects_ab (a b : Char) :
    consume (Concat (Atom a) (Atom b)) [a, b] = Or (Concat EmptySet (Atom b)) EmptySet ∧
      accepts (Concat (Atom a) (Atom b)) [a, b] = false := by
  by_cases h : b = a <;> simp [accepts, h]

/-- C6 (`Star(Atom(a))`), evaluated on the code: after one or more copies of `a`
have been consumed `nullable()` answers `false`. -/
theorem C6_star_atom_rejects_repeats (a : Char) (n : Nat) :
    accepts (Star (Atom a)) (List.replicate (n + 1) a) = false := by
  have h : consume (Star (Atom a)) (List.replicate (n + 1) a)
      = consume (Concat Epsilon (Atom a)) (List.replicate n a) := by
    simp [List.replicate_succ]
  rw [accepts, h]
  cases n with
  | zero => simp
  | succ m =>
      have h2 : consume (Concat Epsilon (Atom a)) (List.replicate (m + 1) a)
          = consume (Concat EmptySet (Atom a)) (List.replicate m a) := by
        simp [List.replicate_succ]
      rw [h2, consume_Concat_EmptySet]
      simp

/-- C7 (skipping a nullable prefix), evaluated on the code: `Or(Atom('a'), Epsilon)`
is nullable and `Atom('b')` is nullable after `derivative('b')`, yet
`Concat(Or(Atom('a'), Epsilon), Atom('b'))` is left as
`Concat(Or(EmptySet, EmptySet), Atom('b'))` by `derivative('b')`, which is not
nullable. -/
theorem C7_nullable_prefix_not_skipped :
    diffFree (Or (Atom 'a') Epsilon) = true ∧ diffFree (Atom 'b') = true ∧
      (nullable (Or (Atom 'a') Epsilon)).1 = true ∧
      (nullable (derivative (Atom 'b') 'b')).1 = true ∧
      derivative (Concat (Or (Atom 'a') Epsilon) (Atom 'b')) 'b'
        = Concat (Or EmptySet EmptySet) (Atom 'b') ∧
      (nullable (derivative (Concat (Or (Atom 'a') Epsilon) (Atom 'b')) 'b')).1 = false := by
  refine ⟨rfl, rfl, by simp, by simp, by simp, by simp⟩

/-- C8 (leaf derivative rules): `derivative(x)` turns `Epsilon` into `EmptySet`,
leaves `EmptySet`, turns `Atom(a)` into `Epsilon` when `a = x` and into `EmptySet`
otherwise; afterwards `nullable()` is true on the atom exactly when `a = x` and
false on the other two. -/
theorem C8_leaf_derivative_rules (a x : Char) :
    derivative Epsilon x = EmptySet ∧
      derivative EmptySet x = EmptySet ∧
      derivative (Atom a) x = (if a = x then Epsilon else EmptySet) ∧
      ((nullable (derivative (Atom a) x)).1 = true ↔ a = x) ∧
      (nullable (derivative Epsilon x)).1 = false ∧
      (nullable (derivative EmptySet x)).1 = false := by
  refine ⟨by simp, by simp, by simp, ?_, by simp, by simp⟩
  by_cases h : a = x <;> simp [h]

/-- C9 (structural nullability): `nullable()` returns true on `Epsilon`, false on
`EmptySet` and on every atom, true on every `Star`, on `Concat(l, r)` the conjunction
and on `Or(l, r)` the disjunction of the answers on `l` and on `r`. -/
theorem C9_nullable_structural (a : Char) (reg left right : Regex) :
    (nullable Epsilon).1 = true ∧
      (nullable EmptySet).1 = false ∧
      (nullable (Atom a)).1 = false ∧
      (nullable (Star reg)).1 = true ∧
      ((nullable (Concat left right)).1 = true ↔
        (nullable left).1 = true ∧ (nullable right).1 = true) ∧
      ((nullable (Or left right)).1 = true ↔
        (nullable left).1 = true ∨ (nullable right).1 = true) := by
  refine ⟨by simp, by simp, by simp, by simp, ?_, ?_⟩
  · rw [nullable_Concat]
    by_cases h : (nullable left).1 = true <;> simp [h]
  · rw [nullable_Or]
    by_cases h : (nullable left).1 = true <;> simp [h]

/-- C10 (Diff derivative rule): `derivative(x)` on `Diff(r, a)` leaves the node equal
to `r` after `derivative(a)` followed by `derivative(x)`. -/
theorem C10_diff_derivative_rule (reg : Regex) (atom x : Char) :
    derivative (Diff reg atom) x = derivative (derivative reg atom) x :=
  derivative_Diff reg atom x

/-- C11, as stated, fails on a thunk whose forced child holds a thunk of its own: on
`Diff(Concat(Atom('a'), Diff(Atom('b'), 'b')), 'a')` the call `nullable()` answers
`true` and leaves the inner thunk forced, so the node is not `Diff(D_a(r), 'a')`. -/
theorem C11_nested_thunk_is_forced_too :
    (nullable (Diff (Concat (Atom 'a') (Diff (Atom 'b') 'b')) 'a')).2
        = Diff (Or (Concat Epsilon (Diff Epsilon 'b')) EmptySet) 'a' ∧
      Diff (derivative (Concat (Atom 'a') (Diff (Atom 'b') 'b')) 'a') 'a'
        = Diff (Or (Concat Epsilon (Diff (Atom 'b') 'b')) EmptySet) 'a' ∧
      (nullable (Diff (Concat (Atom 'a') (Diff (Atom 'b') 'b')) 'a')).2
        ≠ Diff (derivative (Concat (Atom 'a') (Diff (Atom 'b') 'b')) 'a') 'a' := by
  refine ⟨by simp, by simp, by simp⟩

/-- C11 (amended): for every `r` and `a`, `nullable()` on `Diff(r, a)` returns the
nullability of `D_a(r)` and leaves the node tagged `Diff`, holding `D_a(r)` as that
query left it, thunks inside it forced; a second `nullable()` returns the nullability
of the derivative of that child. When `D_a(r)` has no `Diff` node the node is
`Diff(D_a(r), a)` and the second query returns the nullability of `D_a(D_a(r))`. On
`Diff(Atom('a'), 'a')` the two answers are `true` and then `false`. -/
theorem C11_nullable_on_diff (r : Regex) (a : Char) :
    (nullable (Diff r a)).1 = (nullable (derivative r a)).1 ∧
      (nullable (Diff r a)).2 = Diff (nullable (derivative r a)).2 a ∧
      isDiff (nullable (Diff r a)).2 = true ∧
      (nullable (nullable (Diff r a)).2).1
        = (nullable (derivative (nullable (derivative r a)).2 a)).1 ∧
      (diffFree (derivative r a) = true →
        (nullable (Diff r a)).2 = Diff (derivative r a) a ∧
        (nullable (nullable (Diff r a)).2).1
          = (nullable (derivative (derivative r a) a)).1) ∧
      ((nullable (Diff (Atom 'a') 'a')).1 = true ∧
        (nullable (nullable (Diff (Atom 'a') 'a')).2).1 = false) := by
  refine ⟨by simp, by simp, by simp [isDiff], by simp, fun h => ?_, by simp, by simp⟩
  have h2 : (nullable (Diff r a)).2 = Diff (derivative r a) a := by
    rw [nullable_Diff, nullable_snd_of_diffFree _ h]
  refine ⟨h2, ?_⟩
  rw [h2, nullable_Diff]

/-- Witness for C11: on the thunk `Diff(Star(Atom('a')), 'a')` the forced child has no
`Diff` node and the node is left as `Diff(D_a(r), 'a')`; on the thunk
`Diff(Concat(Atom('a'), Diff(Atom('b'), 'b')), 'a')` the node is left holding the
child with its inner thunk forced. -/
theorem C11_nullable_on_diff_witness :
    (diffFree (derivative (Star (Atom 'a')) 'a') = true ∧
      (nullable (Diff (Star (Atom 'a')) 'a')).2
        = Diff (derivative (Star (Atom 'a')) 'a') 'a') ∧
      (nullable (Diff (Concat (Atom 'a') (Diff (Atom 'b') 'b')) 'a')).2
        = Diff (nullable (derivative (Concat (Atom 'a') (Diff (Atom 'b') 'b')) 'a')).2 'a' :=
  ⟨⟨by simp [diffFree],
    ((C11_nullable_on_diff (Star (Atom 'a')) 'a').2.2.2.2.1 (by simp [diffFree])).1⟩,
    (C11_nullable_on_diff (Concat (Atom 'a') (Diff (Atom 'b') 'b')) 'a').2.1⟩

/-- C12 (`makeDiff` on a thunk), evaluated on the code: the pending symbol is applied
twice. `makeDiff(c, x)` with `c = Diff(r, a)` returns `Diff(D_a(D_a(r)), x)`; on
`Diff(Atom('a'), 'a')` it returns `Diff(EmptySet, 'b')` where a single forcing gives
`Diff(Epsilon, 'b')`. A child that is not a thunk is wrapped unchanged. -/
theorem C12_makeDiff_forces_twice :
    (∀ (r : Regex) (a x : Char),
        makeDiff (Diff r a) x = Diff (derivative (derivative r a) a) x) ∧
      makeDiff (Diff (Atom 'a') 'a') 'b' = Diff EmptySet 'b' ∧
      Diff (derivative (Atom 'a') 'a') 'b' = Diff Epsilon 'b' ∧
      (∀ (a x : Char) (r l : Regex),
        makeDiff Epsilon x = Diff Epsilon x ∧ makeDiff EmptySet x = Diff EmptySet x ∧
        makeDiff (Atom a) x = Diff (Atom a) x ∧ makeDiff (Star r) x = Diff (Star r) x ∧
        makeDiff (Concat l r) x = Diff (Concat l r) x ∧
        makeDiff (Or l r) x = Diff (Or l r) x) := by
  refine ⟨fun r a x => by simp [makeDiff], by simp [makeDiff], by simp, ?_⟩
  intro a x r l
  exact ⟨rfl, rfl, rfl, rfl, rfl, rfl⟩

/-- C17 (Or derivative rule): `derivative(x)` on `Or(l, r)` leaves
`Or(D_x(l), D_x(r))`, each child being what `derivative(x)` makes of it alone. -/
theorem C17_or_derivative_rule (left right : Regex) (x : Char) :
    derivative (Or left right) x = Or (derivative left x) (derivative right x) :=
  derivative_Or left right x

/-- C14 (totality): on every tree, thunks nested to any depth included, the
step-indexed `derivative(x)` and `nullable()` return once the bound on nested calls
is large enough, with the results of the total functions `derivative` and
`nullable`; `deepCopy` returns the tree itself; and `derivative(x)` never deepens
the nesting of thunks, which is what bounds the recursion of its `Diff` case. -/
theorem C14_operations_total (r : Regex) (x : Char) :
    (∃ n, ∀ m, n ≤ m → derivativeFuel m r x = some (derivative r x)) ∧
      (∃ n, ∀ m, n ≤ m → nullableFuel m r = some (nullable r)) ∧
      deepCopy r = r ∧
      diffDepth (derivative r x) ≤ diffDepth r ∧
      diffDepth (nullable r).2 ≤ diffDepth r :=
  ⟨fuel_suffices.1 r x, fuel_suffices.2 r, deepCopy_eq r, diffDepth_derivative_le r x,
    diffDepth_nullable_le r⟩

/-- C16 (no false accepts), evaluated on the code: `Concat(Atom('a'), Atom('a'))`
denotes only `"aa"`, yet after `derivative('a')` the tree is
`Or(Concat(Epsilon, Atom('a')), Epsilon)` and `nullable()` answers `true`. -/
theorem C16_false_accept_on_concat :
    diffFree (Concat (Atom 'a') (Atom 'a')) = true ∧
      consume (Concat (Atom 'a') (Atom 'a')) ['a']
        = Or (Concat Epsilon (Atom 'a')) Epsilon ∧
      accepts (Concat (Atom 'a') (Atom 'a')) ['a'] = true ∧
      ['a'] ∉ lang (Concat (Atom 'a') (Atom 'a')) := by
  refine ⟨rfl, by simp, by simp [accepts], ?_⟩
  simp only [lang]
  rw [Language.mem_mul]
  rintro ⟨u, hu, v, hv, huv⟩
  rw [Set.mem_singleton_iff.mp hu, Set.mem_singleton_iff.mp hv] at huv
  simp at huv

/-- C19, as stated, fails: no constant `c` bounds the number of nodes after
consumption by `c` times the number of nodes of the original. With `Diff` nodes not
even the square of the original size bounds one `derivative`: `derivative('a')` turns
`thunkWrap r` into `Concat(Or(Concat(Epsilon, Diff(r', 'a')), D_a(D_a(r))), Epsilon)`
with `r'` the forced copy of `D_a(r)`, so every level of `thunkWrap` doubles the
count. From the 14 nodes of `starTower 13`, whose derivative has 105, three levels
give 29 nodes whose derivative has 216, 438 and finally 882 nodes, more than
`29 ^ 2 = 841`. -/
theorem C19_no_linear_bound :
    (¬ ∃ c : Nat, ∀ (E : Regex) (s : List Char), nodes (consume E s) ≤ c * nodes E) ∧
      (nodes (derivative (starTower 13) 'a') = 105 ∧
        nodes (derivative (thunkWrap (starTower 13)) 'a') = 216 ∧
        nodes (derivative (thunkWrap (thunkWrap (starTower 13))) 'a') = 438 ∧
        nodes (thunkWrap (thunkWrap (thunkWrap (starTower 13)))) = 29 ∧
        nodes (consume (thunkWrap (thunkWrap (thunkWrap (starTower 13)))) ['a']) = 882 ∧
        ¬ nodes (consume (thunkWrap (thunkWrap (thunkWrap (starTower 13)))) ['a'])
            ≤ nodes (thunkWrap (thunkWrap (thunkWrap (starTower 13)))) ^ 2) := by
  have h29 : nodes (thunkWrap (thunkWrap (thunkWrap (starTower 13)))) = 29 := by
    simp [thunkWrap, starTower, nodes]
  have h882 :
      nodes (consume (thunkWrap (thunkWrap (thunkWrap (starTower 13)))) ['a']) = 882 := by
    simp [thunkWrap, starTower, nodes]
  refine ⟨?_, by simp [starTower, nodes], by simp [thunkWrap, starTower, nodes],
    by simp [thunkWrap, starTower, nodes], h29, h882, by rw [h29, h882]; decide⟩
  rintro ⟨c, hc⟩
  have h1 := hc (starTower (2 * c)) ['a']
  have h2 := nodes_derivative_starTower (2 * c) 'a'
  rw [nodes_starTower] at h1
  simp only [consume_cons, consume_nil] at h1
  nlinarith

/-- C19 (amended): each consumed symbol at most squares the tree. For every
expression `E` without `Diff` nodes, every symbol `x` and every string `s`, the tree
after `derivative(x)` has at most `(nodes E) ^ 2` nodes and the tree after consuming
`s` has at most `(nodes E) ^ (2 ^ |s|)` nodes. -/
theorem C19_nodes_bounded (E : Regex) (x : Char) (s : List Char)
    (h : diffFree E = true) :
    nodes (derivative E x) ≤ nodes E ^ 2 ∧
      nodes (consume E s) ≤ nodes E ^ (2 ^ s.length) := by
  refine ⟨nodes_derivative_le E x h, ?_⟩
  induction s generalizing E with
  | nil => simp
  | cons y ys ih =>
      have h1 := nodes_derivative_le E y h
      have h2 := ih (derivative E y) (diffFree_derivative E y h)
      calc nodes (consume E (y :: ys))
          = nodes (consume (derivative E y) ys) := by rw [consume_cons]
        _ ≤ nodes (derivative E y) ^ (2 ^ ys.length) := h2
        _ ≤ (nodes E ^ 2) ^ (2 ^ ys.length) := Nat.pow_le_pow_left h1 _
        _ = nodes E ^ (2 ^ (y :: ys).length) := by
            rw [← pow_mul, List.length_cons, pow_succ, mul_comm]

/-- Witness for C19 (amended): `Star(Star(Atom('a')))` under `derivative('a')` and
after `"aaa"`. -/
theorem C19_nodes_bounded_witness :
    diffFree (Star (Star (Atom 'a'))) = true ∧
      nodes (derivative (Star (Star (Atom 'a'))) 'a') ≤ nodes (Star (Star (Atom 'a'))) ^ 2 ∧
      nodes (consume (Star (Star (Atom 'a'))) ['a', 'a', 'a'])
        ≤ nodes (Star (Star (Atom 'a'))) ^ (2 ^ ['a', 'a', 'a'].length) :=
  ⟨rfl, (C19_nodes_bounded (Star (Star (Atom 'a'))) 'a' ['a', 'a', 'a'] rfl).1,
    (C19_nodes_bounded (Star (Star (Atom 'a'))) 'a' ['a', 'a', 'a'] rfl).2⟩

/-- C20 (only inputs of length 0 or 1 are accepted): for every expression `E` without
`Diff` nodes, two `derivative` calls leave a dead tree, and after any string of
length at least 2 has been consumed `nullable()` answers `false`. -/
theorem C20_dead_after_two_symbols (E : Regex) (s : List Char)
    (h : diffFree E = true) (hs : 2 ≤ s.length) :
    accepts E s = false ∧
      ∀ t : List Char, accepts (consume E s) t = false := by
  match s, hs with
  | x :: y :: rest, _ =>
      have hd : dead (consume E (x :: y :: rest)) = true := by
        rw [consume_cons, consume_cons]
        exact dead_consume _ rest (dead_after_two E x y h)
      exact ⟨(dead_nullable _ hd).1,
        fun t => (dead_nullable _ (dead_consume _ t hd)).1⟩

/-- Witness for C20: `Star(Atom('a'))` and the string `"aa"`. -/
theorem C20_dead_after_two_symbols_witness :
    diffFree (Star (Atom 'a')) = true ∧ 2 ≤ ['a', 'a'].length ∧
      accepts (Star (Atom 'a')) ['a', 'a'] = false :=
  ⟨rfl, by decide, (C20_dead_after_two_symbols (Star (Atom 'a')) ['a', 'a'] rfl (by decide)).1⟩

/-- C18 (bounded thunk nesting): in every tree built by the factory operations and
transformed by `derivative`, `nullable` and `deepCopy` calls, no `Diff` node has a
`Diff` node as its direct child; and `derivative(x)` never leaves the node it is
applied to tagged `Diff`. -/
theorem C18_no_thunk_in_thunk (r : Regex) (h : Built r) :
    noDiffDiff r = true ∧ ∀ (t : Regex) (x : Char), isDiff (derivative t x) = false := by
  refine ⟨?_, isDiff_derivative⟩
  induction h with
  | ofEpsilon => rfl
  | ofEmptySet => rfl
  | ofAtom c => rfl
  | ofStar _ ih => simpa [makeStar, noDiffDiff] using ih
  | ofConcat _ _ ihl ihr => simp [makeConcat, noDiffDiff, ihl, ihr]
  | ofOr _ _ ihl ihr => simp [makeOr, noDiffDiff, ihl, ihr]
  | ofDiff x _ ih => exact noDiffDiff_makeDiff _ x ih
  | ofDerivative x _ ih => exact noDiffDiff_calls.1 _ x ih
  | ofNullable _ ih => exact noDiffDiff_calls.2 _ ih
  | ofDeepCopy _ ih => rw [deepCopy_eq]; exact ih

/-- Witness for C18: `makeDiff` applied to a thunk, then `nullable()` and
`derivative('c')`. -/
theorem C18_no_thunk_in_thunk_witness :
    Built (derivative (nullable (makeDiff (makeDiff (makeAtom 'a') 'a') 'b')).2 'c') ∧
      noDiffDiff (derivative (nullable (makeDiff (makeDiff (makeAtom 'a') 'a') 'b')).2 'c')
        = true :=
  ⟨Built.ofDerivative 'c' (Built.ofNullable (Built.ofDiff 'b' (Built.ofDiff 'a'
      (Built.ofAtom 'a')))),
    (C18_no_thunk_in_thunk _ (Built.ofDerivative 'c' (Built.ofNullable (Built.ofDiff 'b'
      (Built.ofDiff 'a' (Built.ofAtom 'a')))))).1⟩

/-- C21 (pure read without thunks): on a tree without `Diff` nodes `nullable()`
leaves the tree as it was and `derivative(x)` leaves a tree without `Diff` nodes;
hence after any sequence of `derivative` calls on such a tree `nullable()` changes
nothing, and a second query returns the answer of the first. -/
theorem C21_nullable_pure_without_diff (E : Regex) (x : Char) (s : List Char)
    (h : diffFree E = true) :
    (nullable E).2 = E ∧
      diffFree (derivative E x) = true ∧
      diffFree (consume E s) = true ∧
      (nullable (consume E s)).2 = consume E s ∧
      (nullable (nullable (consume E s)).2).1 = (nullable (consume E s)).1 := by
  have hs := diffFree_consume E s h
  have hn := nullable_snd_of_diffFree (consume E s) hs
  exact ⟨nullable_snd_of_diffFree E h, diffFree_derivative E x h, hs, hn, by rw [hn]⟩

/-- Witness for C21: `Concat(Star(Atom('a')), Atom('b'))` after `"ab"`. -/
theorem C21_nullable_pure_without_diff_witness :
    diffFree (Concat (Star (Atom 'a')) (Atom 'b')) = true ∧
      (nullable (consume (Concat (Star (Atom 'a')) (Atom 'b')) ['a', 'b'])).2
        = consume (Concat (Star (Atom 'a')) (Atom 'b')) ['a', 'b'] :=
  ⟨rfl, (C21_nullable_pure_without_diff (Concat (Star (Atom 'a')) (Atom 'b')) 'a'
    ['a', 'b'] rfl).2.2.2.1⟩

end Regex

namespace Heap

/-- C13 (structural copy). `deepCopy` returns a tree equal to its source at every
node. Over the store: the copy of a tree at `p` is built at fresh addresses, reads as
the same tree and shares no node with the source, which is left as it was; and after
any sequence of `derivative` calls on the two trees, in any order, `nullable()` on
the original answers as the source would after the symbols the original consumed,
and `nullable()` on the copy as the source would after the symbols the copy
consumed. -/
theorem C13_deepCopy_independent (E : Regex) (h : Store) (p : Nat) (fp : List Nat)
    (hE : Rep h p E fp) :
    Regex.deepCopy E = E ∧
      ∃ h1 fq, Returns (fun n => deepCopy n h p) (h1, h.length) ∧
        Rep h1 p E fp ∧ Rep h1 h.length E fq ∧ (∀ a ∈ fq, a ∉ fp) ∧
        ∀ ops : List Op, ∃ h2, Returns (fun n => run n h1 p h.length ops) h2 ∧
          (∃ h3, Returns (fun n => nullable n h2 p)
            (h3, Regex.accepts E (originalSymbols ops))) ∧
          (∃ h3, Returns (fun n => nullable n h2 h.length)
            (h3, Regex.accepts E (copySymbols ops))) := by
  refine ⟨Regex.deepCopy_eq E, ?_⟩
  obtain ⟨h1, fq, ret, rq, same, fresh, _⟩ := deepCopy_spec E h p fp hE
  have rp : Rep h1 p E fp := hE.frame fun a ha => same a (hE.lt a ha)
  have dis : ∀ a ∈ fq, a ∉ fp := fun a ha hm => by
    have := fresh a ha
    have := hE.lt a hm
    omega
  refine ⟨h1, fq, ret, rp, rq, dis, fun ops => ?_⟩
  obtain ⟨h2, fp2, fq2, ret2, rp2, rq2, _⟩ := run_spec ops h1 p h.length E E fp fq rp rq dis
  obtain ⟨h3, _, ret3, _, _⟩ := calls_refine.2 _ h2 p fp2 rp2
  obtain ⟨h4, _, ret4, _, _⟩ := calls_refine.2 _ h2 h.length fq2 rq2
  exact ⟨h2, ret2, ⟨h3, ret3⟩, ⟨h4, ret4⟩⟩

/-- Witness for C13: the tree `Star(Atom('a'))` stored at the addresses 0 and 1; its
copy occupies the new addresses 2 and 3. -/
theorem C13_deepCopy_independent_witness :
    Rep [Cell.Atom 'a', Cell.Star 0] 1 (Regex.Star (Regex.Atom 'a')) [1, 0] ∧
      deepCopy 4 [Cell.Atom 'a', Cell.Star 0] 1
        = some ([Cell.Atom 'a', Cell.Star 0, Cell.Star 3, Cell.Atom 'a'], 2) ∧
      ∃ h1 fq, Returns (fun n => deepCopy n [Cell.Atom 'a', Cell.Star 0] 1) (h1, 2) ∧
        Rep h1 2 (Regex.Star (Regex.Atom 'a')) fq :=
  have hE : Rep [Cell.Atom 'a', Cell.Star 0] 1 (Regex.Star (Regex.Atom 'a')) [1, 0] :=
    Rep.star rfl (Rep.atom rfl) (by decide)
  ⟨hE, by decide, by
    obtain ⟨_, h1, fq, ret, _, rq, _⟩ := C13_deepCopy_independent _ _ _ _ hE
    exact ⟨h1, fq, ret, rq⟩⟩

/-- C15 (ownership stays a strict tree), evaluated on the code. The tree
`makeDiff(makeStar(makeAtom('a')), 'a')` occupies the addresses 0 (atom), 1 (star)
and 2 (thunk, the root). After `derivative('b')` on the root, the root and its former
child 1 hold the same payload `Concat(0, 3)`: the nodes 0 and 3 each have the two
parents 1 and 2. `delete` on the root releases 0, 3 and 2; node 1 is never released. -/
theorem C15_forced_child_left_aliased :
    makeDiff 8 [Cell.Atom 'a', Cell.Star 0] 1 'a'
        = some ([Cell.Atom 'a', Cell.Star 0, Cell.Diff 1 'a'], 2) ∧
      derivative 8 [Cell.Atom 'a', Cell.Star 0, Cell.Diff 1 'a'] 2 'b'
        = some [Cell.EmptySet, Cell.Concat 0 3, Cell.Concat 0 3, Cell.Atom 'a'] ∧
      parentsOf [Cell.EmptySet, Cell.Concat 0 3, Cell.Concat 0 3, Cell.Atom 'a'] 0 = [1, 2] ∧
      parentsOf [Cell.EmptySet, Cell.Concat 0 3, Cell.Concat 0 3, Cell.Atom 'a'] 3 = [1, 2] ∧
      destroy 8 [Cell.EmptySet, Cell.Concat 0 3, Cell.Concat 0 3, Cell.Atom 'a'] 2
        = some [0, 3, 2] ∧
      toRegex 8 [Cell.EmptySet, Cell.Concat 0 3, Cell.Concat 0 3, Cell.Atom 'a'] 2
        = some (Regex.derivative (Regex.Diff (Regex.Star (Regex.Atom 'a')) 'a') 'b') := by
  refine ⟨by decide, by decide, by decide, by decide, by decide, ?_⟩
  simp [toRegex]

end Heap

end Aaronpiler
